import Mathlib

/-!
Verification of the core logic of `oci-policy-analyzer.py`:
policy-statement relevance matching with compartment-name resolution.

Strings of the Python source are modelled as lists of characters
(`Str := List Char`); `str.lower()` is `Char.toLower` mapped over the
list (the statements and group names handled by the tool are ASCII).
The mutable `compartment_cache` dictionary of the `OCIPolicyAnalyzer`
object is modelled by explicit state passing (`AnalyzerState`), and the
external identity service (`identity_client.get_compartment`, which can
raise) is an oracle `Str → Option Str`, `none` standing for a raised
exception.  `get_compartment_name` reports, besides its result and the
updated state, how many external calls it made and which compartment
ids it warned about, so that the caching and error-handling claims can
be stated.
-/

namespace OCIPolicy

/-- Python strings, modelled as lists of characters. -/
abbrev Str := List Char

/-- The single-quote character (written via its code point to keep the
source free of quote-escape noise). -/
def squote : Char := Char.ofNat 39

/-- The double-quote character. -/
def dquote : Char := Char.ofNat 34

/-- `str.lower()` on the ASCII fragment. -/
def lowerList (s : Str) : Str := s.map Char.toLower

/-- The characters matched by the regex class `\s` (ASCII fragment):
space, tab, newline, carriage return, vertical tab, form feed. -/
def isPySpace (c : Char) : Bool :=
  c = ' ' || c = Char.ofNat 9 || c = Char.ofNat 10 || c = Char.ofNat 13 ||
  c = Char.ofNat 11 || c = Char.ofNat 12

/-- The characters matched by the regex class `[a-zA-Z0-9\._-]`. -/
def isOcidChar (c : Char) : Bool :=
  c.isAlpha || c.isDigit || c = '.' || c = '_' || c = '-'

/-- `hay` starts with `needle` (plain, case-sensitive). -/
def listStartsWith : Str → Str → Bool
  | _, [] => true
  | [], _ :: _ => false
  | c :: cs, p :: ps => c = p && listStartsWith cs ps

/-- Python's `needle in hay` on strings: substring containment. -/
def pyContains (needle : Str) : Str → Bool
  | [] => needle.isEmpty
  | c :: cs => listStartsWith (c :: cs) needle || pyContains needle cs

/-- The literal `"group "` used to build the candidate patterns. -/
def groupWord : Str := "group ".toList

/-- The three candidate substrings built for one group name in
`filter_policies_for_groups`: `group g`, `group 'g'`, `group "g"`,
with `g` lower-cased. -/
def group_patterns (group_name : Str) : List Str :=
  let g := lowerList group_name
  [groupWord ++ g,
   groupWord ++ squote :: (g ++ [squote]),
   groupWord ++ dquote :: (g ++ [dquote])]

/-- The matching step of `filter_policies_for_groups`: lower-case the
statement once, then look for any candidate pattern of any group. -/
def statement_matches (statement : Str) (group_names : List Str) : Bool :=
  let statement_lower := lowerList statement
  group_names.any fun group_name =>
    (group_patterns group_name).any fun pattern =>
      pyContains pattern statement_lower

/-- The state of the analyzer object that the core logic touches: the
tenancy root id and the compartment-name cache (a dictionary, modelled
as an association list in insertion order). -/
structure AnalyzerState where
  tenancy_id : Str
  compartment_cache : List (Str × Str)
  deriving Repr, DecidableEq

/-- Dictionary lookup in the compartment cache. -/
def lookupCache : List (Str × Str) → Str → Option Str
  | [], _ => none
  | (k, v) :: rest, key => if k = key then some v else lookupCache rest key

/-- The external directory collaborator
(`identity_client.get_compartment`): `none` models a raised exception
(not found, unauthorized, transient failure). -/
abbrev Oracle := Str → Option Str

/-- Result of one `get_compartment_name` call: the returned name, the
state afterwards, the number of calls made to the external
collaborator, and the ids a warning was printed for. -/
structure ResolveOut where
  name : Str
  state : AnalyzerState
  extCalls : Nat
  warnings : List Str
  deriving Repr, DecidableEq

/-- The literal name `"root"` used for the tenancy root. -/
def rootName : Str := "root".toList

/-- `get_compartment_name`: cache lookup first; then the tenancy root
short-circuits to `"root"`; otherwise one external call, whose result
is cached on success; on failure (exception) the original id is
returned, a warning is recorded and the cache is left untouched. -/
def get_compartment_name (oracle : Oracle) (st : AnalyzerState)
    (compartment_id : Str) : ResolveOut :=
  match lookupCache st.compartment_cache compartment_id with
  | some n => ⟨n, st, 0, []⟩
  | none =>
    if compartment_id = st.tenancy_id then
      ⟨rootName,
       { st with compartment_cache :=
           st.compartment_cache ++ [(compartment_id, rootName)] }, 0, []⟩
    else
      match oracle compartment_id with
      | some n =>
        ⟨n,
         { st with compartment_cache :=
             st.compartment_cache ++ [(compartment_id, n)] }, 1, []⟩
      | none => ⟨compartment_id, st, 1, [compartment_id]⟩

/-- The resolution function `get_compartment_name` implements,
viewed extensionally: `"root"` for the tenancy root, the external
answer on success, the raw id on failure. -/
def pureResolve (oracle : Oracle) (tenancy : Str) (cid : Str) : Str :=
  if cid = tenancy then rootName
  else
    match oracle cid with
    | some n => n
    | none => cid

/-- A cache is consistent with an oracle when every entry stores
exactly what resolution would produce.  Every cache reachable by
running the analyzer against this oracle satisfies it. -/
def goodCache (oracle : Oracle) (tenancy : Str)
    (cache : List (Str × Str)) : Prop :=
  ∀ k v, lookupCache cache k = some v → v = pureResolve oracle tenancy k

/-! ## The statement translator

`translate_compartment_ids_in_statement` is
`re.sub(r'compartment\s+(ocid1\.compartment\.[a-zA-Z0-9\._-]+)', repl,
statement, flags=re.IGNORECASE)` where `repl` resolves the captured id
and yields `compartment <name>`.  `re.sub` scans left to right, at each
position attempting the whole pattern; after a match it continues
right after the matched text.  Because after the greedily taken `\s+`
run the next pattern element is the (non-whitespace) literal `ocid1.`,
and nothing follows the final greedy `[a-zA-Z0-9\._-]+`, the regex is
equivalent to the straight greedy scan implemented here. -/

/-- The literal `compartment` of the regex (lower case). -/
def kwCompartment : Str := "compartment".toList

/-- The literal `ocid1.compartment.` of the regex (lower case). -/
def kwOcid : Str := "ocid1.compartment.".toList

/-- Strip a case-insensitive literal from the front of a string,
returning the remainder on success. -/
def stripCI : Str → Str → Option Str
  | [], cs => some cs
  | _ :: _, [] => none
  | p :: ps, c :: cs =>
    if c.toLower = p.toLower then stripCI ps cs else none

/-- Attempt the regex at the head of `cs`.  On success, return the
captured group (the matched `ocid1.compartment.…` token, in its
original casing) and the text after the whole match. -/
def matchHere (cs : Str) : Option (Str × Str) :=
  match stripCI kwCompartment cs with
  | none => none
  | some r1 =>
    if (r1.takeWhile isPySpace).isEmpty then none
    else
      let r2 := r1.dropWhile isPySpace
      match stripCI kwOcid r2 with
      | none => none
      | some r3 =>
        let tok := r3.takeWhile isOcidChar
        if tok.isEmpty then none
        else some (r2.take kwOcid.length ++ tok, r3.dropWhile isOcidChar)

/-- One fuel-indexed pass of `re.sub` with a pure resolver `f`: scan
left to right, emit unmatched characters unchanged, and rewrite each
match to `compartment ` followed by `f` of the captured id.  The fuel
only needs to cover the length of the input (each step consumes at
least one character). -/
def subAux (f : Str → Str) : Nat → Str → Str
  | 0, cs => cs
  | _ + 1, [] => []
  | n + 1, c :: cs =>
    match matchHere (c :: cs) with
    | some (id, rest) => kwCompartment ++ ' ' :: (f id ++ subAux f n rest)
    | none => c :: subAux f n cs

/-- The translator with an arbitrary pure resolver. -/
def translateWith (f : Str → Str) (statement : Str) : Str :=
  subAux f statement.length statement

/-- The fuel-indexed stateful scan: like `subAux`, but each captured id
is resolved through `get_compartment_name`, threading the cache in
match order exactly as `re.sub` invokes the replacement callback. -/
def subAuxSt (oracle : Oracle) :
    Nat → Str → AnalyzerState → Str × AnalyzerState
  | 0, cs, st => (cs, st)
  | _ + 1, [], st => ([], st)
  | n + 1, c :: cs, st =>
    match matchHere (c :: cs) with
    | some (id, rest) =>
      let r := get_compartment_name oracle st id
      let out := subAuxSt oracle n rest r.state
      (kwCompartment ++ ' ' :: (r.name ++ out.1), out.2)
    | none =>
      let out := subAuxSt oracle n cs st
      (c :: out.1, out.2)

/-- `translate_compartment_ids_in_statement`, the faithful (stateful)
embedding: replace compartment OCIDs in a policy statement with the
names `get_compartment_name` produces, returning the rewritten
statement and the analyzer state afterwards. -/
def translate_compartment_ids_in_statement (oracle : Oracle)
    (st : AnalyzerState) (statement : Str) : Str × AnalyzerState :=
  subAuxSt oracle statement.length statement st

/-! ## The pipeline driver -/

/-- A policy record as consumed by the pipeline. -/
structure Policy where
  name : Str
  compartment_id : Str
  statements : List Str
  deriving Repr, DecidableEq

/-- One result row: `(policy name, compartment name, translated
statement)`. -/
abbrev MatchResult := Str × Str × Str

/-- The inner statement loop of `filter_policies_for_groups` for one
policy: `policy_name` and the already-resolved `compartment_name` are
fixed; each statement that matches some group is translated (mutating
the cache) and emitted; `break` after the first group hit means each
statement is emitted at most once. -/
def filterStmts (oracle : Oracle) (group_names : List Str)
    (policy_name compartment_name : Str) :
    List Str → AnalyzerState → List MatchResult × AnalyzerState
  | [], st => ([], st)
  | s :: rest, st =>
    if statement_matches s group_names then
      let t := translate_compartment_ids_in_statement oracle st s
      let out := filterStmts oracle group_names policy_name compartment_name rest t.2
      ((policy_name, compartment_name, t.1) :: out.1, out.2)
    else
      filterStmts oracle group_names policy_name compartment_name rest st

/-- `filter_policies_for_groups`: for each policy in input order,
resolve its compartment name once, then run the statement loop;
results are accumulated in input order across policies. -/
def filter_policies_for_groups (oracle : Oracle) (policies : List Policy)
    (group_names : List Str) (st : AnalyzerState) :
    List MatchResult × AnalyzerState :=
  match policies with
  | [] => ([], st)
  | p :: ps =>
    let r := get_compartment_name oracle st p.compartment_id
    let out1 := filterStmts oracle group_names p.name r.name p.statements r.state
    let out2 := filter_policies_for_groups oracle ps group_names out1.2
    (out1.1 ++ out2.1, out2.2)

/-! ## Spec-side notions used by the claims -/

/-- The containment condition of the specification, spelled out from
its words: the lower-cased statement contains, for at least one group
`g`, one of the three substrings `group ` + lower(g),
`group '` + lower(g) + `'`, or `group "` + lower(g) + `"`
(`∃ u v, hay = u ++ pat ++ v` is literal substring containment). -/
def specGroupMatch (statement : Str) (group_names : List Str) : Prop :=
  ∃ g ∈ group_names,
    (∃ u v, lowerList statement
      = u ++ (("group ".toList ++ lowerList g) ++ v)) ∨
    (∃ u v, lowerList statement
      = u ++ (("group ".toList ++ squote :: (lowerList g ++ [squote])) ++ v)) ∨
    (∃ u v, lowerList statement
      = u ++ (("group ".toList ++ dquote :: (lowerList g ++ [dquote])) ++ v))

/-- Decidable bounded check that the translator's pattern occurs
nowhere in `cs` (`matchHere` fails at every start position). -/
def hasMatch (cs : Str) : Bool :=
  (List.range cs.length).any fun p => (matchHere (cs.drop p)).isSome

/-- A sequence of `get_compartment_name` calls: each entry supplies
the oracle behaviour at that moment (failures may be transient) and
the requested compartment id. -/
def runCalls (tenancy : Str) (calls : List (Oracle × Str)) : AnalyzerState :=
  calls.foldl (fun st oc => (get_compartment_name oc.1 st oc.2).state)
    ⟨tenancy, []⟩

/-! ## Cache and resolver lemmas -/

theorem lookupCache_append (c1 c2 : List (Str × Str)) (k : Str) :
    lookupCache (c1 ++ c2) k =
      ((lookupCache c1 k).rec (lookupCache c2 k) fun v => some v) := by
  induction c1 with
  | nil => simp [lookupCache]
  | cons e rest ih =>
    by_cases h : e.1 = k <;> simp [lookupCache, h, ih]

theorem lookupCache_append_of_some {c1 : List (Str × Str)} {k v : Str}
    (h : lookupCache c1 k = some v) (c2 : List (Str × Str)) :
    lookupCache (c1 ++ c2) k = some v := by
  rw [lookupCache_append, h]

theorem lookupCache_append_of_none {c1 : List (Str × Str)} {k : Str}
    (h : lookupCache c1 k = none) (c2 : List (Str × Str)) :
    lookupCache (c1 ++ c2) k = lookupCache c2 k := by
  rw [lookupCache_append, h]

/-- Equation: cache hit. -/
theorem gcn_cached {st : AnalyzerState} {cid n : Str}
    (h : lookupCache st.compartment_cache cid = some n) (oracle : Oracle) :
    get_compartment_name oracle st cid = ⟨n, st, 0, []⟩ := by
  unfold get_compartment_name
  rw [h]

/-- Equation: uncached tenancy root. -/
theorem gcn_root {st : AnalyzerState} {cid : Str}
    (h : lookupCache st.compartment_cache cid = none)
    (hr : cid = st.tenancy_id) (oracle : Oracle) :
    get_compartment_name oracle st cid =
      ⟨rootName,
       { st with compartment_cache :=
           st.compartment_cache ++ [(cid, rootName)] }, 0, []⟩ := by
  unfold get_compartment_name
  rw [h]
  simp [hr]

/-- Equation: uncached non-root id, successful external call. -/
theorem gcn_ok {st : AnalyzerState} {cid n : Str}
    (h : lookupCache st.compartment_cache cid = none)
    (hr : cid ≠ st.tenancy_id) {oracle : Oracle} (ho : oracle cid = some n) :
    get_compartment_name oracle st cid =
      ⟨n,
       { st with compartment_cache :=
           st.compartment_cache ++ [(cid, n)] }, 1, []⟩ := by
  unfold get_compartment_name
  rw [h]
  simp [hr, ho]

/-- Equation: uncached non-root id, failed external call. -/
theorem gcn_fail {st : AnalyzerState} {cid : Str}
    (h : lookupCache st.compartment_cache cid = none)
    (hr : cid ≠ st.tenancy_id) {oracle : Oracle} (ho : oracle cid = none) :
    get_compartment_name oracle st cid = ⟨cid, st, 1, [cid]⟩ := by
  unfold get_compartment_name
  rw [h]
  simp [hr, ho]

/-- `get_compartment_name` never changes the stored tenancy id. -/
theorem gcn_tenancy (oracle : Oracle) (st : AnalyzerState) (cid : Str) :
    (get_compartment_name oracle st cid).state.tenancy_id = st.tenancy_id := by
  cases h : lookupCache st.compartment_cache cid with
  | some n => rw [gcn_cached h]
  | none =>
    by_cases hroot : cid = st.tenancy_id
    · rw [gcn_root h hroot]
    · cases h2 : oracle cid with
      | some n => rw [gcn_ok h hroot h2]
      | none => rw [gcn_fail h hroot h2]

/-- Appending one absent-key entry keeps a cache consistent, provided
the new value is what resolution produces for that key. -/
theorem goodCache_append {oracle : Oracle} {tenancy : Str}
    {cache : List (Str × Str)} (hg : goodCache oracle tenancy cache)
    {cid : Str} (hv : pureResolve oracle tenancy cid = v) :
    goodCache oracle tenancy (cache ++ [(cid, v)]) := by
  intro k w hkw
  rw [lookupCache_append] at hkw
  cases hk : lookupCache cache k with
  | some v0 =>
    rw [hk] at hkw
    exact (by simpa using hkw : v0 = w) ▸ hg k v0 hk
  | none =>
    rw [hk] at hkw
    simp only [lookupCache] at hkw
    by_cases hke : cid = k
    · simp [hke] at hkw
      exact hkw ▸ (hke ▸ hv.symm)
    · simp [hke] at hkw

/-- Existing cache entries survive a `get_compartment_name` call
unchanged. -/
theorem gcn_monotone (oracle : Oracle) (st : AnalyzerState) (cid : Str)
    {k v : Str} (h : lookupCache st.compartment_cache k = some v) :
    lookupCache (get_compartment_name oracle st cid).state.compartment_cache k
      = some v := by
  cases hc : lookupCache st.compartment_cache cid with
  | some n => rw [gcn_cached hc]; exact h
  | none =>
    by_cases hroot : cid = st.tenancy_id
    · rw [gcn_root hc hroot]
      exact lookupCache_append_of_some h _
    · cases h2 : oracle cid with
      | some n =>
        rw [gcn_ok hc hroot h2]
        exact lookupCache_append_of_some h _
      | none => rw [gcn_fail hc hroot h2]; exact h

/-- The cache after a `get_compartment_name` call is either unchanged,
or the old cache with exactly one new entry appended, for a key that
was absent and with the name just returned. -/
theorem gcn_cache_shape (oracle : Oracle) (st : AnalyzerState) (cid : Str) :
    (get_compartment_name oracle st cid).state.compartment_cache
        = st.compartment_cache ∨
      (lookupCache st.compartment_cache cid = none ∧
        (get_compartment_name oracle st cid).state.compartment_cache
          = st.compartment_cache
              ++ [(cid, (get_compartment_name oracle st cid).name)]) := by
  cases hc : lookupCache st.compartment_cache cid with
  | some n => rw [gcn_cached hc]; exact Or.inl rfl
  | none =>
    by_cases hroot : cid = st.tenancy_id
    · rw [gcn_root hc hroot]; exact Or.inr ⟨rfl, rfl⟩
    · cases h2 : oracle cid with
      | some n => rw [gcn_ok hc hroot h2]; exact Or.inr ⟨rfl, rfl⟩
      | none => rw [gcn_fail hc hroot h2]; exact Or.inl rfl

/-- On a consistent cache, `get_compartment_name` returns exactly
`pureResolve`, and the cache stays consistent. -/
theorem gcn_pure (oracle : Oracle) (st : AnalyzerState) (cid : Str)
    (hg : goodCache oracle st.tenancy_id st.compartment_cache) :
    (get_compartment_name oracle st cid).name
        = pureResolve oracle st.tenancy_id cid ∧
      goodCache oracle st.tenancy_id
        (get_compartment_name oracle st cid).state.compartment_cache := by
  cases hc : lookupCache st.compartment_cache cid with
  | some n =>
    rw [gcn_cached hc]
    exact ⟨hg cid n hc, hg⟩
  | none =>
    by_cases hroot : cid = st.tenancy_id
    · rw [gcn_root hc hroot]
      have hv : pureResolve oracle st.tenancy_id cid = rootName := by
        simp [pureResolve, hroot]
      exact ⟨hv.symm, goodCache_append hg hv⟩
    · cases h2 : oracle cid with
      | some n =>
        rw [gcn_ok hc hroot h2]
        have hv : pureResolve oracle st.tenancy_id cid = n := by
          simp [pureResolve, hroot, h2]
        exact ⟨hv.symm, goodCache_append hg hv⟩
      | none =>
        rw [gcn_fail hc hroot h2]
        exact ⟨by simp [pureResolve, hroot, h2], hg⟩

/-! ## Substring containment -/

theorem listStartsWith_iff (hay nee : Str) :
    listStartsWith hay nee = true ↔ ∃ t, hay = nee ++ t := by
  induction nee generalizing hay with
  | nil => simp [listStartsWith]
  | cons p ps ih =>
    cases hay with
    | nil => simp [listStartsWith]
    | cons c cs =>
      simp only [listStartsWith, Bool.and_eq_true, decide_eq_true_eq, ih cs]
      constructor
      · rintro ⟨hc, t, ht⟩
        exact ⟨t, by simp [hc, ht]⟩
      · rintro ⟨t, ht⟩
        simp only [List.cons_append, List.cons.injEq] at ht
        exact ⟨ht.1, t, ht.2⟩

theorem pyContains_iff (nee hay : Str) :
    pyContains nee hay = true ↔ ∃ u v, hay = u ++ (nee ++ v) := by
  induction hay with
  | nil =>
    simp only [pyContains, List.isEmpty_iff]
    constructor
    · intro h
      exact ⟨[], [], by simp [h]⟩
    · rintro ⟨u, v, huv⟩
      simp only [List.nil_eq, List.append_eq_nil] at huv
      exact huv.2.1
  | cons c cs ih =>
    simp only [pyContains, Bool.or_eq_true, listStartsWith_iff, ih]
    constructor
    · rintro (⟨t, ht⟩ | ⟨u, v, huv⟩)
      · exact ⟨[], t, by simp [ht]⟩
      · exact ⟨c :: u, v, by simp [huv]⟩
    · rintro ⟨u, v, huv⟩
      cases u with
      | nil => exact Or.inl ⟨v, by simpa using huv⟩
      | cons x u =>
        simp only [List.cons_append, List.cons.injEq] at huv
        exact Or.inr ⟨u, v, huv.2⟩

/-! ## The root invariant and call sequences -/

/-- The cache never associates the tenancy root id with anything but
`"root"`. -/
def rootOK (st : AnalyzerState) : Prop :=
  ∀ v, lookupCache st.compartment_cache st.tenancy_id = some v → v = rootName

theorem gcn_rootOK {st : AnalyzerState} (h : rootOK st) (oracle : Oracle)
    (cid : Str) : rootOK (get_compartment_name oracle st cid).state := by
  intro v hv
  rw [gcn_tenancy] at hv
  cases hc : lookupCache st.compartment_cache cid with
  | some n =>
    rw [gcn_cached hc] at hv
    exact h v hv
  | none =>
    by_cases hroot : cid = st.tenancy_id
    · rw [gcn_root hc hroot] at hv
      simp only at hv
      rw [lookupCache_append_of_none (hroot ▸ hc)] at hv
      simp [lookupCache, hroot] at hv
      exact hv.symm
    · cases h2 : oracle cid with
      | some n =>
        rw [gcn_ok hc hroot h2] at hv
        simp only at hv
        cases hk : lookupCache st.compartment_cache st.tenancy_id with
        | some v0 =>
          rw [lookupCache_append_of_some hk] at hv
          exact h v (hk.trans (by simpa using hv))
        | none =>
          rw [lookupCache_append_of_none hk] at hv
          simp [lookupCache, hroot] at hv
      | none =>
        rw [gcn_fail hc hroot h2] at hv
        exact h v hv

theorem runCalls_tenancy_aux (calls : List (Oracle × Str)) :
    ∀ st : AnalyzerState,
      (calls.foldl (fun st oc => (get_compartment_name oc.1 st oc.2).state) st).tenancy_id
        = st.tenancy_id := by
  induction calls with
  | nil => intro st; rfl
  | cons oc rest ih =>
    intro st
    rw [List.foldl_cons, ih, gcn_tenancy]

theorem runCalls_tenancy (tenancy : Str) (calls : List (Oracle × Str)) :
    (runCalls tenancy calls).tenancy_id = tenancy :=
  runCalls_tenancy_aux calls _

theorem runCalls_rootOK (tenancy : Str) (calls : List (Oracle × Str)) :
    rootOK (runCalls tenancy calls) := by
  unfold runCalls
  generalize hst : (⟨tenancy, []⟩ : AnalyzerState) = st0
  have h0 : rootOK st0 := by
    intro v hv
    rw [← hst] at hv
    simp [lookupCache] at hv
  clear hst
  induction calls generalizing st0 with
  | nil => exact h0
  | cons oc rest ih =>
    rw [List.foldl_cons]
    exact ih _ (gcn_rootOK h0 oc.1 oc.2)

/-! ## C1, C4, C5, C6 -/

/-- C1: the matching step of `filter_policies_for_groups` treats a
statement as matching a set of group names exactly when the
lower-cased statement contains, for at least one group, one of the
three candidate substrings (`group g`, `group 'g'`, `group "g"` with
`g` lower-cased); and a statement is included in the per-policy result
exactly when this condition holds. -/
theorem c1_matching_step (s : Str) (G : List Str) :
    (statement_matches s G = true ↔ specGroupMatch s G) ∧
    ∀ (oracle : Oracle) (st : AnalyzerState) (pn cn : Str),
      ((filterStmts oracle G pn cn [s] st).1 ≠ [] ↔ specGroupMatch s G) := by
  have hiff : statement_matches s G = true ↔ specGroupMatch s G := by
    simp only [statement_matches, specGroupMatch, group_patterns,
      List.any_eq_true, List.any_cons, List.any_nil, Bool.or_eq_true,
      Bool.false_eq_true, or_false, pyContains_iff, List.append_assoc,
      groupWord]
  refine ⟨hiff, fun oracle st pn cn => ?_⟩
  by_cases hm : statement_matches s G
  · simp [filterStmts, hm, hiff.mp hm]
  · have hs : ¬ specGroupMatch s G := fun hsp => hm (hiff.mpr hsp)
    simp [filterStmts, hm, hs]

/-- C4: after any sequence of `get_compartment_name` calls (each with
its own oracle behaviour), resolving the tenancy root id returns
`"root"` and performs no external call. -/
theorem c4_root_resolution (tenancy : Str) (calls : List (Oracle × Str))
    (oracle : Oracle) :
    (get_compartment_name oracle (runCalls tenancy calls) tenancy).name
        = rootName ∧
      (get_compartment_name oracle (runCalls tenancy calls) tenancy).extCalls
        = 0 := by
  have ht := runCalls_tenancy tenancy calls
  have hro := runCalls_rootOK tenancy calls
  cases hc : lookupCache (runCalls tenancy calls).compartment_cache tenancy with
  | some v =>
    rw [gcn_cached hc]
    exact ⟨hro v (by rw [ht]; exact hc), rfl⟩
  | none =>
    rw [gcn_root hc ht.symm]
    exact ⟨rfl, rfl⟩

/-- C5: when the external lookup fails for an uncached non-root id,
`get_compartment_name` returns the raw id, records a warning, leaves
the state untouched; and a statement matching a group is still
included in the pipeline result, carrying the raw id as its
compartment name. -/
theorem c5_failure_nonfatal (oracle : Oracle) (st : AnalyzerState) (cid : Str)
    (hc : lookupCache st.compartment_cache cid = none)
    (hr : cid ≠ st.tenancy_id) (ho : oracle cid = none) :
    (get_compartment_name oracle st cid).name = cid ∧
    (get_compartment_name oracle st cid).state = st ∧
    (get_compartment_name oracle st cid).warnings = [cid] ∧
    ∀ (G : List Str) (pname s : Str), statement_matches s G = true →
      (filter_policies_for_groups oracle [⟨pname, cid, [s]⟩] G st).1
        = [(pname, cid,
            (translate_compartment_ids_in_statement oracle st s).1)] := by
  have heq := gcn_fail hc hr ho
  refine ⟨by rw [heq], by rw [heq], by rw [heq], ?_⟩
  intro G pname s hm
  simp [filter_policies_for_groups, filterStmts, heq, hm]

/-- Witness for C5 at a concrete failing oracle. -/
theorem c5_failure_nonfatal_witness :
    lookupCache (AnalyzerState.mk "t".toList []).compartment_cache
        "ocid1.compartment.c".toList = none ∧
    "ocid1.compartment.c".toList ≠ (AnalyzerState.mk "t".toList []).tenancy_id ∧
    ((fun _ => none : Oracle) "ocid1.compartment.c".toList = none) ∧
    ((get_compartment_name (fun _ => none) (AnalyzerState.mk "t".toList [])
        "ocid1.compartment.c".toList).name = "ocid1.compartment.c".toList ∧
      (get_compartment_name (fun _ => none) (AnalyzerState.mk "t".toList [])
        "ocid1.compartment.c".toList).state = AnalyzerState.mk "t".toList [] ∧
      (get_compartment_name (fun _ => none) (AnalyzerState.mk "t".toList [])
        "ocid1.compartment.c".toList).warnings
          = ["ocid1.compartment.c".toList] ∧
      ∀ (G : List Str) (pname s : Str), statement_matches s G = true →
        (filter_policies_for_groups (fun _ => none)
            [⟨pname, "ocid1.compartment.c".toList, [s]⟩] G
            (AnalyzerState.mk "t".toList [])).1
          = [(pname, "ocid1.compartment.c".toList,
              (translate_compartment_ids_in_statement (fun _ => none)
                (AnalyzerState.mk "t".toList []) s).1)]) :=
  ⟨by decide, by decide, rfl,
    c5_failure_nonfatal (fun _ => none) (AnalyzerState.mk "t".toList [])
      "ocid1.compartment.c".toList (by decide) (by decide) rfl⟩

/-- C6 counterexample: with an oracle that keeps failing, two calls of
`get_compartment_name` on the same uncached non-root id both invoke
the external collaborator — the total is not at most one. -/
theorem c6_counterexample :
    "c".toList ≠ (AnalyzerState.mk "t".toList []).tenancy_id ∧
    ¬ ((get_compartment_name (fun _ => none) (AnalyzerState.mk "t".toList [])
          "c".toList).extCalls +
        (get_compartment_name (fun _ => none)
          (get_compartment_name (fun _ => none) (AnalyzerState.mk "t".toList [])
            "c".toList).state "c".toList).extCalls ≤ 1) := by
  decide

/-- C6 amended: if the oracle answers for the id (no failure), two
consecutive calls on the same id make at most one external call — the
second is served from the cache. -/
theorem c6_amended_cache_hit (oracle : Oracle) (st : AnalyzerState) (cid : Str)
    (hs : (oracle cid).isSome = true) :
    (get_compartment_name oracle st cid).extCalls +
      (get_compartment_name oracle (get_compartment_name oracle st cid).state
        cid).extCalls ≤ 1 := by
  cases hc : lookupCache st.compartment_cache cid with
  | some n => simp [gcn_cached hc]
  | none =>
    by_cases hroot : cid = st.tenancy_id
    · rw [gcn_root hc hroot]
      have hc2 : lookupCache
          ({ st with compartment_cache :=
            st.compartment_cache ++ [(cid, rootName)] }
              : AnalyzerState).compartment_cache cid = some rootName := by
        show lookupCache (st.compartment_cache ++ [(cid, rootName)]) cid = _
        rw [lookupCache_append_of_none hc]
        simp [lookupCache]
      rw [gcn_cached hc2]
      simp
    · obtain ⟨n, ho⟩ := Option.isSome_iff_exists.mp hs
      rw [gcn_ok hc hroot ho]
      have hc2 : lookupCache
          ({ st with compartment_cache :=
            st.compartment_cache ++ [(cid, n)] }
              : AnalyzerState).compartment_cache cid = some n := by
        show lookupCache (st.compartment_cache ++ [(cid, n)]) cid = _
        rw [lookupCache_append_of_none hc]
        simp [lookupCache]
      rw [gcn_cached hc2]
      simp

/-- Witness for the amended C6 at a concrete succeeding oracle. -/
theorem c6_amended_cache_hit_witness :
    ((fun _ => some "n".toList : Oracle) "c".toList).isSome = true ∧
    (get_compartment_name (fun _ => some "n".toList)
        (AnalyzerState.mk "t".toList []) "c".toList).extCalls +
      (get_compartment_name (fun _ => some "n".toList)
        (get_compartment_name (fun _ => some "n".toList)
          (AnalyzerState.mk "t".toList []) "c".toList).state "c".toList).extCalls
      ≤ 1 :=
  ⟨rfl, c6_amended_cache_hit (fun _ => some "n".toList)
    (AnalyzerState.mk "t".toList []) "c".toList rfl⟩

/-! ## Monotonicity through the pipeline, C9, C10, C3 -/

theorem subAuxSt_monotone (oracle : Oracle) :
    ∀ (n : Nat) (cs : Str) (st : AnalyzerState) {k v : Str},
      lookupCache st.compartment_cache k = some v →
      lookupCache (subAuxSt oracle n cs st).2.compartment_cache k = some v := by
  intro n
  induction n with
  | zero => intro cs st k v h; exact h
  | succ n ih =>
    intro cs st k v h
    cases cs with
    | nil => exact h
    | cons c cs =>
      cases hm : matchHere (c :: cs) with
      | some pr =>
        simp only [subAuxSt, hm]
        exact ih pr.2 _ (gcn_monotone oracle st pr.1 h)
      | none =>
        simp only [subAuxSt, hm]
        exact ih cs st h

theorem filterStmts_monotone (oracle : Oracle) (G : List Str) (pn cn : Str) :
    ∀ (stmts : List Str) (st : AnalyzerState) {k v : Str},
      lookupCache st.compartment_cache k = some v →
      lookupCache (filterStmts oracle G pn cn stmts st).2.compartment_cache k
        = some v := by
  intro stmts
  induction stmts with
  | nil => intro st k v h; exact h
  | cons s rest ih =>
    intro st k v h
    by_cases hm : statement_matches s G
    · simp only [filterStmts, hm, if_true]
      exact ih _ (subAuxSt_monotone oracle _ s st h)
    · simp only [filterStmts, hm, if_false]
      exact ih st h

theorem filter_monotone (oracle : Oracle) (G : List Str) :
    ∀ (policies : List Policy) (st : AnalyzerState) {k v : Str},
      lookupCache st.compartment_cache k = some v →
      lookupCache
        (filter_policies_for_groups oracle policies G st).2.compartment_cache k
        = some v := by
  intro policies
  induction policies with
  | nil => intro st k v h; exact h
  | cons p ps ih =>
    intro st k v h
    simp only [filter_policies_for_groups]
    exact ih _ (filterStmts_monotone oracle G p.name _ p.statements _
      (gcn_monotone oracle st p.compartment_id h))

/-- C9: the compartment cache grows monotonically.  A
`get_compartment_name` call preserves every existing entry and either
leaves the cache unchanged or appends exactly one entry for a
previously absent key; the whole pipeline likewise never removes or
overwrites an entry. -/
theorem c9_cache_monotone (oracle : Oracle) (st : AnalyzerState) (cid : Str)
    (policies : List Policy) (G : List Str) :
    (∀ k v, lookupCache st.compartment_cache k = some v →
      lookupCache
        (get_compartment_name oracle st cid).state.compartment_cache k
        = some v) ∧
    ((get_compartment_name oracle st cid).state.compartment_cache
        = st.compartment_cache ∨
      (lookupCache st.compartment_cache cid = none ∧
        (get_compartment_name oracle st cid).state.compartment_cache
          = st.compartment_cache
              ++ [(cid, (get_compartment_name oracle st cid).name)])) ∧
    (∀ k v, lookupCache st.compartment_cache k = some v →
      lookupCache
        (filter_policies_for_groups oracle policies G st).2.compartment_cache k
        = some v) :=
  ⟨fun _ v h => gcn_monotone oracle st cid h,
   gcn_cache_shape oracle st cid,
   fun _ v h => filter_monotone oracle G policies st h⟩

/-- Witness for C9 at a concrete pre-populated cache. -/
theorem c9_cache_monotone_witness :
    lookupCache
        (AnalyzerState.mk "t".toList [("a".toList, "A".toList)]).compartment_cache
        "a".toList = some "A".toList ∧
    lookupCache
        (get_compartment_name (fun _ => none)
          (AnalyzerState.mk "t".toList [("a".toList, "A".toList)])
          "b".toList).state.compartment_cache "a".toList = some "A".toList ∧
    lookupCache
        (filter_policies_for_groups (fun _ => none) []
          ["g".toList]
          (AnalyzerState.mk "t".toList
            [("a".toList, "A".toList)])).2.compartment_cache "a".toList
      = some "A".toList :=
  ⟨by decide,
   (c9_cache_monotone (fun _ => none)
      (AnalyzerState.mk "t".toList [("a".toList, "A".toList)]) "b".toList []
      ["g".toList]).1 "a".toList "A".toList (by decide),
   (c9_cache_monotone (fun _ => none)
      (AnalyzerState.mk "t".toList [("a".toList, "A".toList)]) "b".toList []
      ["g".toList]).2.2 "a".toList "A".toList (by decide)⟩

/-- C10: a failed lookup is not cached — the fallback id→id mapping is
not stored, the state is returned unchanged — so a later call with the
same id retries the collaborator and caches the real name if the retry
succeeds. -/
theorem c10_failure_not_cached (oracle oracle2 : Oracle) (st : AnalyzerState)
    (cid n : Str)
    (hc : lookupCache st.compartment_cache cid = none)
    (hr : cid ≠ st.tenancy_id)
    (ho : oracle cid = none) (ho2 : oracle2 cid = some n) :
    (get_compartment_name oracle st cid).state = st ∧
    (get_compartment_name oracle st cid).name = cid ∧
    (get_compartment_name oracle2 (get_compartment_name oracle st cid).state
        cid).name = n ∧
    (get_compartment_name oracle2 (get_compartment_name oracle st cid).state
        cid).extCalls = 1 ∧
    lookupCache
      (get_compartment_name oracle2 (get_compartment_name oracle st cid).state
        cid).state.compartment_cache cid = some n := by
  have h1 := gcn_fail hc hr ho
  have h2 := gcn_ok hc hr ho2
  rw [h1]
  simp only [h2]
  refine ⟨trivial, trivial, trivial, trivial, ?_⟩
  rw [lookupCache_append_of_none hc]
  simp [lookupCache]

/-- Witness for C10: the failing call leaves the cache empty, the
retry with a working oracle caches the real name. -/
theorem c10_failure_not_cached_witness :
    lookupCache (AnalyzerState.mk "t".toList []).compartment_cache "c".toList
        = none ∧
    "c".toList ≠ (AnalyzerState.mk "t".toList []).tenancy_id ∧
    ((fun _ => none : Oracle) "c".toList = none) ∧
    ((fun _ => some "n".toList : Oracle) "c".toList = some "n".toList) ∧
    ((get_compartment_name (fun _ => none) (AnalyzerState.mk "t".toList [])
        "c".toList).state = AnalyzerState.mk "t".toList [] ∧
      (get_compartment_name (fun _ => none) (AnalyzerState.mk "t".toList [])
        "c".toList).name = "c".toList ∧
      (get_compartment_name (fun _ => some "n".toList)
        (get_compartment_name (fun _ => none) (AnalyzerState.mk "t".toList [])
          "c".toList).state "c".toList).name = "n".toList ∧
      (get_compartment_name (fun _ => some "n".toList)
        (get_compartment_name (fun _ => none) (AnalyzerState.mk "t".toList [])
          "c".toList).state "c".toList).extCalls = 1 ∧
      lookupCache
        (get_compartment_name (fun _ => some "n".toList)
          (get_compartment_name (fun _ => none) (AnalyzerState.mk "t".toList [])
            "c".toList).state "c".toList).state.compartment_cache "c".toList
        = some "n".toList) :=
  ⟨by decide, by decide, rfl, rfl,
    c10_failure_not_cached (fun _ => none) (fun _ => some "n".toList)
      (AnalyzerState.mk "t".toList []) "c".toList "n".toList
      (by decide) (by decide) rfl rfl⟩

theorem filterStmts_length (oracle : Oracle) (G : List Str) (pn cn : Str) :
    ∀ (stmts : List Str) (st : AnalyzerState),
      (filterStmts oracle G pn cn stmts st).1.length
        = (stmts.filter fun s => statement_matches s G).length := by
  intro stmts
  induction stmts with
  | nil => intro st; rfl
  | cons s rest ih =>
    intro st
    by_cases hm : statement_matches s G
    · simp [filterStmts, hm, ih]
    · simp [filterStmts, hm, ih]

/-- C3: the pipeline emits exactly one result row per (policy,
statement) pair whose statement matches at least one group — never
more, however many of the group names occur in the statement's text. -/
theorem c3_one_row_per_statement (oracle : Oracle) (policies : List Policy)
    (G : List Str) (st : AnalyzerState) :
    (filter_policies_for_groups oracle policies G st).1.length
      = (policies.map fun p =>
          (p.statements.filter fun s => statement_matches s G).length).sum := by
  induction policies generalizing st with
  | nil => rfl
  | cons p ps ih =>
    simp [filter_policies_for_groups, filterStmts_length, ih]

/-! ## Characterizing the regex match -/

theorem lowerList_length (l : Str) : (lowerList l).length = l.length := by
  simp [lowerList]

theorem stripCI_some_iff (ps : Str) :
    ∀ cs r, stripCI ps cs = some r ↔
      ∃ w, cs = w ++ r ∧ lowerList w = lowerList ps := by
  induction ps with
  | nil =>
    intro cs r
    constructor
    · intro h
      simp only [stripCI, Option.some.injEq] at h
      exact ⟨[], by simp [h], by simp [lowerList]⟩
    · rintro ⟨w, hw, hl⟩
      have hw0 : w = [] := by
        have := congrArg List.length hl
        simpa [lowerList] using this
      subst hw0
      simp only [stripCI, Option.some.injEq]
      simpa using hw
  | cons p ps ih =>
    intro cs r
    cases cs with
    | nil =>
      constructor
      · intro h; simp [stripCI] at h
      · rintro ⟨w, hw, hl⟩
        cases w with
        | nil => simp [lowerList] at hl
        | cons x xs => simp at hw
    | cons c cs =>
      constructor
      · intro h
        simp only [stripCI] at h
        by_cases hcp : c.toLower = p.toLower
        · rw [if_pos hcp] at h
          obtain ⟨w, hw, hl⟩ := (ih cs r).mp h
          refine ⟨c :: w, by simp [hw], ?_⟩
          simp only [lowerList, List.map_cons] at hl ⊢
          rw [hcp, hl]
        · rw [if_neg hcp] at h
          exact absurd h (by simp)
      · rintro ⟨w, hw, hl⟩
        cases w with
        | nil => simp [lowerList] at hl
        | cons x xs =>
          simp only [List.cons_append, List.cons.injEq] at hw
          obtain ⟨hx, hcs⟩ := hw
          simp only [lowerList, List.map_cons, List.cons.injEq] at hl
          subst hx
          simp only [stripCI, if_pos hl.1]
          exact (ih cs r).mpr ⟨xs, hcs, hl.2⟩

theorem stripCI_length {ps cs r : Str} (h : stripCI ps cs = some r) :
    cs.length = ps.length + r.length := by
  obtain ⟨w, hw, hl⟩ := (stripCI_some_iff ps cs r).mp h
  have : w.length = ps.length := by
    have := congrArg List.length hl
    simpa [lowerList_length] using this
  simp [hw, this]

theorem takeWhile_append_eq {p : Char → Bool} :
    ∀ (ws rest : Str), (∀ c ∈ ws, p c = true) →
      (∀ c, rest.head? = some c → p c = false) →
      (ws ++ rest).takeWhile p = ws ∧ (ws ++ rest).dropWhile p = rest := by
  intro ws
  induction ws with
  | nil =>
    intro rest h1 h2
    cases rest with
    | nil => exact ⟨rfl, rfl⟩
    | cons c cs =>
      have := h2 c rfl
      simp [List.takeWhile_cons, List.dropWhile_cons, this]
  | cons w ws ih =>
    intro rest h1 h2
    have hw := h1 w (by simp)
    have hih := ih rest (fun c hc => h1 c (by simp [hc])) h2
    simp [List.takeWhile_cons, List.dropWhile_cons, hw, hih.1, hih.2]

theorem dropWhile_head_false (p : Char → Bool) :
    ∀ (l : Str) c, (l.dropWhile p).head? = some c → p c = false := by
  intro l
  induction l with
  | nil => intro c h; simp [List.dropWhile] at h
  | cons x xs ih =>
    intro c h
    rw [List.dropWhile_cons] at h
    by_cases hx : p x
    · rw [if_pos hx] at h
      exact ih c h
    · rw [if_neg hx] at h
      simp only [List.head?_cons, Option.some.injEq] at h
      exact h ▸ (by simpa using hx)

theorem mem_takeWhile_true {p : Char → Bool} :
    ∀ (l : Str) c, c ∈ l.takeWhile p → p c = true := by
  intro l
  induction l with
  | nil => intro c h; simp [List.takeWhile] at h
  | cons x xs ih =>
    intro c h
    rw [List.takeWhile_cons] at h
    by_cases hx : p x
    · rw [if_pos hx] at h
      rcases List.mem_cons.mp h with h | h
      · exact h ▸ hx
      · exact ih c h
    · rw [if_neg hx] at h
      simp at h

/-- The parts of a successful match of the regex
`compartment\s+(ocid1\.compartment\.[a-zA-Z0-9\._-]+)` (with
`IGNORECASE`) at the very start of a string. -/
def MatchParts (cs id rest : Str) : Prop :=
  ∃ w ws tp tok, cs = w ++ ws ++ tp ++ tok ++ rest ∧
    lowerList w = kwCompartment ∧
    ws ≠ [] ∧ (∀ c ∈ ws, isPySpace c = true) ∧
    lowerList tp = kwOcid ∧
    tok ≠ [] ∧ (∀ c ∈ tok, isOcidChar c = true) ∧
    (∀ c, rest.head? = some c → isOcidChar c = false) ∧
    id = tp ++ tok

theorem isPySpace_not_lower_o {c : Char} (h : isPySpace c = true) :
    ¬ c.toLower = 'o' := by
  simp only [isPySpace, Bool.or_eq_true, decide_eq_true_eq] at h
  rcases h with ((((h | h) | h) | h) | h) | h <;> subst h <;> decide

theorem matchHere_some_iff (cs id rest : Str) :
    matchHere cs = some (id, rest) ↔ MatchParts cs id rest := by
  constructor
  · intro h
    unfold matchHere at h
    cases h1 : stripCI kwCompartment cs with
    | none => rw [h1] at h; exact absurd h (by simp)
    | some r1 =>
      simp only [h1] at h
      obtain ⟨w, hcs, hlw⟩ := (stripCI_some_iff _ _ _).mp h1
      by_cases hemp : (r1.takeWhile isPySpace).isEmpty
      · rw [if_pos hemp] at h; exact absurd h (by simp)
      · rw [if_neg hemp] at h
        cases h2 : stripCI kwOcid (r1.dropWhile isPySpace) with
        | none => simp only [h2] at h; exact absurd h (by simp)
        | some r3 =>
          simp only [h2] at h
          obtain ⟨tp, hr2, hltp⟩ := (stripCI_some_iff _ _ _).mp h2
          by_cases hemp2 : (r3.takeWhile isOcidChar).isEmpty
          · rw [if_pos hemp2] at h; exact absurd h (by simp)
          · rw [if_neg hemp2] at h
            simp only [Option.some.injEq, Prod.mk.injEq] at h
            obtain ⟨hid, hrest⟩ := h
            refine ⟨w, r1.takeWhile isPySpace, tp, r3.takeWhile isOcidChar,
              ?_, ?_, ?_, ?_, ?_, ?_, ?_, ?_, ?_⟩
            · rw [hcs, ← hrest]
              have e1 := List.takeWhile_append_dropWhile
                (p := isPySpace) (l := r1)
              have e3 := List.takeWhile_append_dropWhile
                (p := isOcidChar) (l := r3)
              have hr1 : r1 = r1.takeWhile isPySpace ++
                  (tp ++ (r3.takeWhile isOcidChar ++
                    r3.dropWhile isOcidChar)) := by
                calc r1 = r1.takeWhile isPySpace ++ r1.dropWhile isPySpace :=
                      e1.symm
                  _ = r1.takeWhile isPySpace ++ (tp ++ r3) := by rw [hr2]
                  _ = r1.takeWhile isPySpace ++ (tp ++ (r3.takeWhile isOcidChar
                        ++ r3.dropWhile isOcidChar)) := by rw [e3]
              calc w ++ r1
                  = w ++ (r1.takeWhile isPySpace ++
                      (tp ++ (r3.takeWhile isOcidChar ++
                        r3.dropWhile isOcidChar))) := by rw [← hr1]
                _ = w ++ r1.takeWhile isPySpace ++ tp ++
                      r3.takeWhile isOcidChar ++ r3.dropWhile isOcidChar := by
                    simp [List.append_assoc]
            · simpa [lowerList] using hlw
            · simpa [List.isEmpty_iff] using hemp
            · exact fun c hc => mem_takeWhile_true r1 c hc
            · simpa [lowerList] using hltp
            · simpa [List.isEmpty_iff] using hemp2
            · exact fun c hc => mem_takeWhile_true r3 c hc
            · rw [← hrest]; exact dropWhile_head_false isOcidChar r3
            · rw [← hid, hr2]
              have htplen : tp.length = kwOcid.length := by
                have := congrArg List.length hltp
                simpa [lowerList_length] using this
              rw [← htplen]
              congr 1
              exact List.take_left tp r3
  · rintro ⟨w, ws, tp, tok, hcs, hlw, hwsne, hwssp, hltp, htokne, htokoc,
      hrest, hid⟩
    have htpne : tp ≠ [] := by
      intro h0
      rw [h0] at hltp
      have := congrArg List.length hltp
      simp [lowerList, kwOcid] at this
    obtain ⟨t0, tp', rfl⟩ := List.exists_cons_of_ne_nil htpne
    have ht0 : t0.toLower = 'o' := by
      simp only [lowerList, List.map_cons] at hltp
      have : kwOcid = 'o' :: "cid1.compartment.".toList := by decide
      rw [this] at hltp
      exact (List.cons.injEq _ _ _ _ ▸ hltp).1
    have h1 : stripCI kwCompartment cs = some (ws ++ (t0 :: tp') ++ tok ++ rest) := by
      apply (stripCI_some_iff _ _ _).mpr
      refine ⟨w, ?_, by simpa [lowerList] using hlw⟩
      rw [hcs]; simp [List.append_assoc]
    have hsp : ((ws ++ ((t0 :: tp') ++ (tok ++ rest))).takeWhile isPySpace = ws ∧
        (ws ++ ((t0 :: tp') ++ (tok ++ rest))).dropWhile isPySpace
          = (t0 :: tp') ++ (tok ++ rest)) := by
      apply takeWhile_append_eq ws _ hwssp
      intro c hc
      simp only [List.cons_append, List.head?_cons, Option.some.injEq] at hc
      subst hc
      by_contra hb
      exact isPySpace_not_lower_o (by simpa using hb) ht0
    have h2 : stripCI kwOcid ((t0 :: tp') ++ (tok ++ rest))
        = some (tok ++ rest) := by
      apply (stripCI_some_iff _ _ _).mpr
      exact ⟨t0 :: tp', rfl, by simpa [lowerList] using hltp⟩
    have h3 : ((tok ++ rest).takeWhile isOcidChar = tok ∧
        (tok ++ rest).dropWhile isOcidChar = rest) :=
      takeWhile_append_eq tok rest htokoc hrest
    have htplen : (t0 :: tp').length = kwOcid.length := by
      have := congrArg List.length hltp
      simpa [lowerList_length] using this
    unfold matchHere
    rw [h1]
    have hws' : (ws ++ ((t0 :: tp') ++ (tok ++ rest))) =
        ws ++ (t0 :: tp') ++ tok ++ rest := by simp [List.append_assoc]
    rw [hws'] at hsp
    simp only [hsp.1, hsp.2]
    rw [if_neg (by simpa [List.isEmpty_iff] using hwsne)]
    rw [h2]
    simp only [h3.1, h3.2]
    rw [if_neg (by simpa [List.isEmpty_iff] using htokne)]
    rw [hid, ← htplen, List.take_left]

theorem matchHere_nil : matchHere [] = none := rfl

theorem matchHere_rest_length {cs id rest : Str}
    (h : matchHere cs = some (id, rest)) : rest.length < cs.length := by
  obtain ⟨w, ws, tp, tok, hcs, hlw, hwsne, -, -, htokne, -, -, -⟩ :=
    (matchHere_some_iff cs id rest).mp h
  have hw : w.length = 11 := by
    have := congrArg List.length hlw
    simpa [lowerList_length, kwCompartment] using this
  have hws : 0 < ws.length := List.length_pos.mpr hwsne
  have := congrArg List.length hcs
  simp only [List.length_append] at this
  omega

theorem subAux_fuel (f : Str → Str) :
    ∀ (m n : Nat) (cs : Str), cs.length ≤ m → cs.length ≤ n →
      subAux f m cs = subAux f n cs := by
  intro m
  induction m with
  | zero =>
    intro n cs hm _
    have h0 : cs = [] := List.length_eq_zero.mp (Nat.le_zero.mp hm)
    subst h0
    cases n <;> rfl
  | succ m ih =>
    intro n cs hm hn
    cases cs with
    | nil => cases n <;> rfl
    | cons c cs0 =>
      cases n with
      | zero => simp at hn
      | succ n0 =>
        cases hmh : matchHere (c :: cs0) with
        | some pr =>
          obtain ⟨id, rest⟩ := pr
          simp only [subAux, hmh]
          have hlen := matchHere_rest_length hmh
          simp only [List.length_cons] at hlen hm hn
          rw [ih n0 rest (by omega) (by omega)]
        | none =>
          simp only [subAux, hmh]
          simp only [List.length_cons] at hm hn
          rw [ih n0 cs0 (by omega) (by omega)]

theorem subAux_eq_translateWith (f : Str → Str) {n : Nat} {cs : Str}
    (h : cs.length ≤ n) : subAux f n cs = translateWith f cs :=
  subAux_fuel f n cs.length cs h (Nat.le_refl _)

theorem translateWith_match (f : Str → Str) {cs id rest : Str}
    (h : matchHere cs = some (id, rest)) :
    translateWith f cs = kwCompartment ++ ' ' :: (f id ++ translateWith f rest) := by
  cases cs with
  | nil => rw [matchHere_nil] at h; exact absurd h (by simp)
  | cons c cs0 =>
    have hlen := matchHere_rest_length h
    show subAux f (c :: cs0).length (c :: cs0) = _
    simp only [List.length_cons, subAux, h]
    rw [subAux_eq_translateWith f (by simpa [Nat.lt_succ_iff] using hlen)]

theorem translateWith_nomatch_cons (f : Str → Str) {c : Char} {cs : Str}
    (h : matchHere (c :: cs) = none) :
    translateWith f (c :: cs) = c :: translateWith f cs := by
  show subAux f (c :: cs).length (c :: cs) = _
  simp only [List.length_cons, subAux, h]
  rw [subAux_eq_translateWith f (Nat.le_refl _)]

theorem translateWith_of_noMatch (f : Str → Str) :
    ∀ cs : Str, (∀ p, matchHere (cs.drop p) = none) →
      translateWith f cs = cs := by
  intro cs
  induction cs with
  | nil => intro _; rfl
  | cons c cs0 ih =>
    intro h
    rw [translateWith_nomatch_cons f (by simpa using h 0)]
    rw [ih fun p => by simpa using h (p + 1)]

theorem hasMatch_false_iff (cs : Str) :
    hasMatch cs = false ↔ ∀ p, matchHere (cs.drop p) = none := by
  constructor
  · intro h p
    by_cases hp : p < cs.length
    · have hf := List.any_eq_false.mp h p (List.mem_range.mpr hp)
      cases ho : matchHere (cs.drop p) with
      | none => rfl
      | some v => rw [ho] at hf; simp at hf
    · rw [List.drop_eq_nil_of_le (by omega)]
      exact matchHere_nil
  · intro h
    apply List.any_eq_false.mpr
    intro p _
    simp [h p]

/-- The leftmost-match step: if nothing matches at any position inside
`a` and the pattern matches at the start of `cs`, then one `re.sub`
pass copies `a`, rewrites the match, and continues after it. -/
theorem translateWith_leftmost (f : Str → Str) :
    ∀ (a cs : Str) {id rest : Str},
      (∀ p, p < a.length → matchHere ((a ++ cs).drop p) = none) →
      matchHere cs = some (id, rest) →
      translateWith f (a ++ cs)
        = a ++ (kwCompartment ++ ' ' :: (f id ++ translateWith f rest)) := by
  intro a
  induction a with
  | nil =>
    intro cs id rest _ hm
    simpa using translateWith_match f hm
  | cons x a0 ih =>
    intro cs id rest h hm
    have h0 : matchHere (x :: (a0 ++ cs)) = none := by
      simpa using h 0 (by simp)
    have hshift : ∀ p, p < a0.length → matchHere ((a0 ++ cs).drop p) = none := by
      intro p hp
      have := h (p + 1) (by simp only [List.length_cons]; omega)
      simpa using this
    calc translateWith f ((x :: a0) ++ cs)
        = translateWith f (x :: (a0 ++ cs)) := by rw [List.cons_append]
      _ = x :: translateWith f (a0 ++ cs) := translateWith_nomatch_cons f h0
      _ = x :: (a0 ++ (kwCompartment ++ ' ' :: (f id ++ translateWith f rest))) := by
          rw [ih cs hshift hm]
      _ = (x :: a0) ++ (kwCompartment ++ ' ' :: (f id ++ translateWith f rest)) := by
          simp

/-! ## Stateful–pure refinement of the translator and pipeline -/

theorem subAuxSt_pure (oracle : Oracle) :
    ∀ (n : Nat) (cs : Str) (st : AnalyzerState),
      goodCache oracle st.tenancy_id st.compartment_cache →
      (subAuxSt oracle n cs st).1
          = subAux (pureResolve oracle st.tenancy_id) n cs ∧
        (subAuxSt oracle n cs st).2.tenancy_id = st.tenancy_id ∧
        goodCache oracle st.tenancy_id
          (subAuxSt oracle n cs st).2.compartment_cache := by
  intro n
  induction n with
  | zero => intro cs st hg; exact ⟨rfl, rfl, hg⟩
  | succ n ih =>
    intro cs st hg
    cases cs with
    | nil => exact ⟨rfl, rfl, hg⟩
    | cons c cs0 =>
      cases hm : matchHere (c :: cs0) with
      | some pr =>
        obtain ⟨id, rest⟩ := pr
        simp only [subAuxSt, subAux, hm]
        obtain ⟨hname, hgood⟩ := gcn_pure oracle st id hg
        have htl := gcn_tenancy oracle st id
        have hih := ih rest (get_compartment_name oracle st id).state
          (by rw [htl]; exact hgood)
        rw [htl] at hih
        exact ⟨by rw [hname, hih.1], hih.2.1, hih.2.2⟩
      | none =>
        simp only [subAuxSt, subAux, hm]
        have hih := ih cs0 st hg
        exact ⟨by rw [hih.1], hih.2.1, hih.2.2⟩

theorem translateSt_pure {oracle : Oracle} {st : AnalyzerState} (s : Str)
    (hg : goodCache oracle st.tenancy_id st.compartment_cache) :
    (translate_compartment_ids_in_statement oracle st s).1
        = translateWith (pureResolve oracle st.tenancy_id) s ∧
      (translate_compartment_ids_in_statement oracle st s).2.tenancy_id
        = st.tenancy_id ∧
      goodCache oracle st.tenancy_id
        (translate_compartment_ids_in_statement oracle st s).2.compartment_cache :=
  subAuxSt_pure oracle s.length s st hg

theorem filterStmts_pure (oracle : Oracle) (G : List Str) (pn cn : Str) :
    ∀ (stmts : List Str) (st : AnalyzerState),
      goodCache oracle st.tenancy_id st.compartment_cache →
      (filterStmts oracle G pn cn stmts st).1
          = (stmts.filter fun s => statement_matches s G).map
              (fun s => (pn, cn,
                translateWith (pureResolve oracle st.tenancy_id) s)) ∧
        (filterStmts oracle G pn cn stmts st).2.tenancy_id = st.tenancy_id ∧
        goodCache oracle st.tenancy_id
          (filterStmts oracle G pn cn stmts st).2.compartment_cache := by
  intro stmts
  induction stmts with
  | nil => intro st hg; exact ⟨rfl, rfl, hg⟩
  | cons s rest ih =>
    intro st hg
    by_cases hm : statement_matches s G
    · simp only [filterStmts, hm, if_true]
      obtain ⟨ht1, ht2, ht3⟩ := translateSt_pure s hg
      have hih := ih (translate_compartment_ids_in_statement oracle st s).2
        (by rw [ht2]; exact ht3)
      rw [ht2] at hih
      refine ⟨?_, hih.2.1, hih.2.2⟩
      simp [hm, ht1, hih.1]
    · simp only [filterStmts, hm, if_false]
      have hih := ih st hg
      refine ⟨?_, hih.2.1, hih.2.2⟩
      simp [hm, hih.1]

theorem filter_pure (oracle : Oracle) (G : List Str) :
    ∀ (policies : List Policy) (st : AnalyzerState),
      goodCache oracle st.tenancy_id st.compartment_cache →
      (filter_policies_for_groups oracle policies G st).1
          = policies.flatMap (fun p =>
              (p.statements.filter fun s => statement_matches s G).map
                (fun s => (p.name,
                  pureResolve oracle st.tenancy_id p.compartment_id,
                  translateWith (pureResolve oracle st.tenancy_id) s))) ∧
        (filter_policies_for_groups oracle policies G st).2.tenancy_id
          = st.tenancy_id ∧
        goodCache oracle st.tenancy_id
          (filter_policies_for_groups oracle policies G st).2.compartment_cache := by
  intro policies
  induction policies with
  | nil => intro st hg; exact ⟨rfl, rfl, hg⟩
  | cons p ps ih =>
    intro st hg
    simp only [filter_policies_for_groups]
    obtain ⟨hname, hgood⟩ := gcn_pure oracle st p.compartment_id hg
    have htl := gcn_tenancy oracle st p.compartment_id
    obtain ⟨hf1, hf2, hf3⟩ := filterStmts_pure oracle G p.name
      (get_compartment_name oracle st p.compartment_id).name p.statements
      (get_compartment_name oracle st p.compartment_id).state
      (by rw [htl]; exact hgood)
    rw [htl] at hf1 hf2 hf3
    have hih := ih (filterStmts oracle G p.name
      (get_compartment_name oracle st p.compartment_id).name p.statements
      (get_compartment_name oracle st p.compartment_id).state).2
      (by rw [hf2]; exact hf3)
    rw [hf2] at hih
    refine ⟨?_, hih.2.1, hih.2.2⟩
    rw [List.flatMap_cons]
    rw [hf1, hih.1, hname]

/-! ## C2 and C8 -/

/-- C2: `translate_compartment_ids_in_statement` rewrites each
occurrence of case-insensitive `compartment`, whitespace, and an
`ocid1.compartment.…` token by substituting only the id token with
the resolver's name for it, emitting the literal word `compartment`
and a single following space, and continuing after the match; a
statement with no occurrence anywhere is returned unchanged. -/
theorem c2_translate_replacement (oracle : Oracle) (st : AnalyzerState)
    (hg : goodCache oracle st.tenancy_id st.compartment_cache)
    (a w ws tp tok b : Str)
    (hw : lowerList w = kwCompartment)
    (hws : ws ≠ []) (hws2 : ∀ c ∈ ws, isPySpace c = true)
    (htp : lowerList tp = kwOcid)
    (htok : tok ≠ []) (htok2 : ∀ c ∈ tok, isOcidChar c = true)
    (hb : ∀ c, b.head? = some c → isOcidChar c = false)
    (hleft : ∀ p, p < a.length →
      matchHere ((a ++ (w ++ ws ++ tp ++ tok ++ b)).drop p) = none) :
    (translate_compartment_ids_in_statement oracle st
        (a ++ (w ++ ws ++ tp ++ tok ++ b))).1
      = a ++ (kwCompartment ++ ' ' ::
          (pureResolve oracle st.tenancy_id (tp ++ tok) ++
            translateWith (pureResolve oracle st.tenancy_id) b)) ∧
    ∀ s : Str, (∀ p, matchHere (s.drop p) = none) →
      (translate_compartment_ids_in_statement oracle st s).1 = s := by
  have hm : matchHere (w ++ ws ++ tp ++ tok ++ b) = some (tp ++ tok, b) :=
    (matchHere_some_iff _ _ _).mpr
      ⟨w, ws, tp, tok, rfl, hw, hws, hws2, htp, htok, htok2, hb, rfl⟩
  constructor
  · rw [(translateSt_pure _ hg).1]
    exact translateWith_leftmost _ a _ hleft hm
  · intro s hs
    rw [(translateSt_pure s hg).1]
    exact translateWith_of_noMatch _ s hs

/-- Witness for C2 on the specification's own scenario. -/
theorem c2_translate_replacement_witness :
    goodCache
      (fun id => if id = "ocid1.compartment.oc1..xyz".toList
        then some "Finance".toList else none)
      (AnalyzerState.mk "t".toList []).tenancy_id
      (AnalyzerState.mk "t".toList []).compartment_cache ∧
    lowerList "compartment".toList = kwCompartment ∧
    lowerList "ocid1.compartment.".toList = kwOcid ∧
    ((translate_compartment_ids_in_statement
        (fun id => if id = "ocid1.compartment.oc1..xyz".toList
          then some "Finance".toList else none)
        (AnalyzerState.mk "t".toList [])
        ("Allow group Admins to manage all-resources in ".toList ++
          ("compartment".toList ++ [' '] ++ "ocid1.compartment.".toList ++
            "oc1..xyz".toList ++ []))).1
      = "Allow group Admins to manage all-resources in ".toList ++
          (kwCompartment ++ ' ' ::
            (pureResolve
              (fun id => if id = "ocid1.compartment.oc1..xyz".toList
                then some "Finance".toList else none)
              (AnalyzerState.mk "t".toList []).tenancy_id
              ("ocid1.compartment.".toList ++ "oc1..xyz".toList) ++
              translateWith (pureResolve
                (fun id => if id = "ocid1.compartment.oc1..xyz".toList
                  then some "Finance".toList else none)
                (AnalyzerState.mk "t".toList []).tenancy_id) [])) ∧
      ∀ s : Str, (∀ p, matchHere (s.drop p) = none) →
        (translate_compartment_ids_in_statement
          (fun id => if id = "ocid1.compartment.oc1..xyz".toList
            then some "Finance".toList else none)
          (AnalyzerState.mk "t".toList []) s).1 = s) :=
  ⟨fun _ _ h => by simp [lookupCache] at h, by decide, by decide,
    c2_translate_replacement _ (AnalyzerState.mk "t".toList [])
      (fun _ _ h => by simp [lookupCache] at h)
      "Allow group Admins to manage all-resources in ".toList
      "compartment".toList [' '] "ocid1.compartment.".toList
      "oc1..xyz".toList []
      (by decide) (by decide) (by decide) (by decide) (by decide) (by decide)
      (fun c h => Option.noConfusion h) (by decide)⟩

/-- C8: on a consistent cache, the pipeline's output is exactly the
order-preserving pure pipeline: policies in input order, each policy's
matching statements in input order, with one compartment name per
policy (`pureResolve` of its compartment id) reused in every row of
that policy. -/
theorem c8_order_and_single_resolution (oracle : Oracle)
    (policies : List Policy) (G : List Str) (st : AnalyzerState)
    (hg : goodCache oracle st.tenancy_id st.compartment_cache) :
    (filter_policies_for_groups oracle policies G st).1
      = policies.flatMap (fun p =>
          (p.statements.filter fun s => statement_matches s G).map
            (fun s => (p.name,
              pureResolve oracle st.tenancy_id p.compartment_id,
              translateWith (pureResolve oracle st.tenancy_id) s))) :=
  (filter_pure oracle G policies st hg).1

/-- Witness for C8 on a two-policy, multi-statement input. -/
theorem c8_order_and_single_resolution_witness :
    goodCache (fun _ => some "Finance".toList)
      (AnalyzerState.mk "t".toList []).tenancy_id
      (AnalyzerState.mk "t".toList []).compartment_cache ∧
    (filter_policies_for_groups (fun _ => some "Finance".toList)
        [⟨"P1".toList, "c1".toList,
          ["allow group admins to read all-resources in tenancy".toList,
           "allow service x to use y".toList,
           "allow group ADMINS to manage z".toList]⟩,
         ⟨"P2".toList, "c2".toList,
          ["allow group admins to inspect w".toList]⟩]
        ["Admins".toList] (AnalyzerState.mk "t".toList [])).1
      = ([⟨"P1".toList, "c1".toList,
          ["allow group admins to read all-resources in tenancy".toList,
           "allow service x to use y".toList,
           "allow group ADMINS to manage z".toList]⟩,
         ⟨"P2".toList, "c2".toList,
          ["allow group admins to inspect w".toList]⟩] : List Policy).flatMap
          (fun p =>
          (p.statements.filter fun s =>
            statement_matches s ["Admins".toList]).map
            (fun s => (p.name,
              pureResolve (fun _ => some "Finance".toList)
                (AnalyzerState.mk "t".toList []).tenancy_id p.compartment_id,
              translateWith (pureResolve (fun _ => some "Finance".toList)
                (AnalyzerState.mk "t".toList []).tenancy_id) s))) :=
  ⟨fun _ _ h => by simp [lookupCache] at h,
    c8_order_and_single_resolution (fun _ => some "Finance".toList) _
      ["Admins".toList] (AnalyzerState.mk "t".toList [])
      (fun _ _ h => by simp [lookupCache] at h)⟩

/-! ## Towards idempotence: character and segment facts -/

/-- `toLower` only moves upper-case letters, and letters are token
characters; so a non-token character is a `toLower` fixpoint. -/
theorem toLower_eq_self_of_not_ocid {c : Char} (h : isOcidChar c = false) :
    c.toLower = c := by
  unfold Char.toLower
  rw [if_neg]
  rintro ⟨h1, h2⟩
  have ha : c.isAlpha = true := by
    simp only [Char.isAlpha, Char.isUpper, Bool.or_eq_true, Bool.and_eq_true,
      decide_eq_true_eq]
    exact Or.inl ⟨h1, h2⟩
  simp [isOcidChar, ha] at h

theorem ocid_of_toLower_ocid {c : Char} (h : isOcidChar c.toLower = true) :
    isOcidChar c = true := by
  by_contra hc
  rw [toLower_eq_self_of_not_ocid (Bool.eq_false_iff.mpr hc)] at h
  exact hc h

theorem kw_chars_ocid : ∀ d ∈ kwCompartment, isOcidChar d = true := by decide

theorem kwOcid_chars_ocid : ∀ d ∈ kwOcid, isOcidChar d = true := by decide

/-- Every character of a case-insensitive occurrence of `compartment`
is a token character. -/
theorem ocid_of_mem_lower_kw {w : Str} (h : lowerList w = kwCompartment) :
    ∀ c ∈ w, isOcidChar c = true := by
  intro c hc
  apply ocid_of_toLower_ocid
  apply kw_chars_ocid
  rw [← h]
  exact List.mem_map_of_mem Char.toLower hc

/-- Every character of a case-insensitive occurrence of
`ocid1.compartment.` is a token character. -/
theorem ocid_of_mem_lower_kwOcid {tp : Str} (h : lowerList tp = kwOcid) :
    ∀ c ∈ tp, isOcidChar c = true := by
  intro c hc
  apply ocid_of_toLower_ocid
  apply kwOcid_chars_ocid
  rw [← h]
  exact List.mem_map_of_mem Char.toLower hc

theorem length_of_lower_kw {w : Str} (h : lowerList w = kwCompartment) :
    w.length = 11 := by
  have := congrArg List.length h
  simpa [lowerList_length, kwCompartment] using this

theorem length_of_lower_kwOcid {tp : Str} (h : lowerList tp = kwOcid) :
    tp.length = 18 := by
  have := congrArg List.length h
  simpa [lowerList_length, kwOcid] using this

theorem lowerList_append (x y : Str) :
    lowerList (x ++ y) = lowerList x ++ lowerList y := by
  simp [lowerList]

/-- Dissect `u ++ v = x ++ y` when `x` is no longer than `u`. -/
theorem split_long {u v x y : Str} (h : u ++ v = x ++ y)
    (hle : x.length ≤ u.length) : ∃ k, u = x ++ k ∧ y = k ++ v := by
  rcases List.append_eq_append_iff.mp h with ⟨a', hc, hb⟩ | ⟨c', hu, hd⟩
  · have : a' = [] := by
      have := congrArg List.length hc
      simp only [List.length_append] at this
      have : a'.length = 0 := by omega
      exact List.length_eq_zero.mp this
    subst this
    exact ⟨[], by simpa using hc.symm, (by simpa using hb : v = y).symm⟩
  · exact ⟨c', hu, hd⟩

/-- A name is safe for re-translation when it is nonempty, does not
begin with whitespace, and contains no case-insensitive occurrence of
`compartment`. -/
def SafeName (n : Str) : Prop :=
  n ≠ [] ∧ (∀ c, n.head? = some c → isPySpace c = false) ∧
  pyContains kwCompartment (lowerList n) = false

theorem SafeName.no_kw {n : Str} (h : SafeName n) {u v : Str}
    (he : lowerList n = u ++ (kwCompartment ++ v)) : False := by
  have := h.2.2
  rw [Bool.eq_false_iff] at this
  exact this ((pyContains_iff _ _).mpr ⟨u, v, he⟩)

/-- A string whose head is not a token character cannot match the
pattern at its start. -/
theorem matchHere_none_of_head {l : Str}
    (h : ∀ c, l.head? = some c → isOcidChar c = false) :
    matchHere l = none := by
  cases hm : matchHere l with
  | none => rfl
  | some pr =>
    obtain ⟨w, ws, tp, tok, hl, hlw, hwsne, -, -, -, -, -, -⟩ :=
      (matchHere_some_iff l pr.1 pr.2).mp (by rw [hm])
    have hwne : w ≠ [] := by
      intro h0
      rw [h0] at hlw
      have := congrArg List.length hlw
      simp [lowerList, kwCompartment] at this
    obtain ⟨c0, w', hw⟩ := List.exists_cons_of_ne_nil hwne
    have hc0 : isOcidChar c0 = true :=
      ocid_of_mem_lower_kw hlw c0 (by rw [hw]; simp)
    have hhead : l.head? = some c0 := by rw [hl, hw]; rfl
    rw [h c0 hhead] at hc0
    exact absurd hc0 (by simp)

/-- One `re.sub` pass keeps the head of a string whose head is not a
token character. -/
theorem translateWith_head_eq (f : Str → Str) {l : Str}
    (h : ∀ c, l.head? = some c → isOcidChar c = false) :
    (translateWith f l).head? = l.head? := by
  cases l with
  | nil => rfl
  | cons c l0 =>
    rw [translateWith_nomatch_cons f (matchHere_none_of_head h)]
    rfl

theorem kwOcid_split :
    kwOcid = "ocid1.".toList ++ (kwCompartment ++ ['.']) := by decide

/-- No match can start exactly at the replacement text
`compartment <name><translated rest>` when the name is safe and the
translated rest has no match and no token-character head. -/
theorem noMatchR_zero (name Tr : Str) (hname : SafeName name)
    (hTrh : ∀ c, Tr.head? = some c → isOcidChar c = false) :
    matchHere (kwCompartment ++ ' ' :: (name ++ Tr)) = none := by
  cases hm : matchHere (kwCompartment ++ ' ' :: (name ++ Tr)) with
  | none => rfl
  | some pr =>
    exfalso
    obtain ⟨w', ws', tp', tok', hX, hlw', hwsne', hwssp', hltp', htokne',
      htokoc', hrest', -⟩ :=
      (matchHere_some_iff _ pr.1 pr.2).mp (by rw [hm])
    have hX' : kwCompartment ++ ' ' :: (name ++ Tr)
        = w' ++ (ws' ++ (tp' ++ (tok' ++ pr.2))) := by
      rw [hX]; simp [List.append_assoc]
    have hw'len : w'.length = 11 := length_of_lower_kw hlw'
    obtain ⟨k1, hk1, hk1b⟩ := split_long hX'
      (by simp [hw'len, kwCompartment])
    have hkwlen : kwCompartment.length = 11 := by decide
    have hk1nil : k1 = [] := by
      have hl := congrArg List.length hk1
      rw [hkwlen, List.length_append, hw'len] at hl
      exact List.length_eq_zero.mp (by omega)
    subst hk1nil
    simp only [List.append_nil] at hk1
    rw [List.nil_append] at hk1b
    -- so w' = kw and ws' ++ tp' ++ tok' ++ rest = ' ' :: (name ++ Tr)
    obtain ⟨s0, ws'', hws⟩ := List.exists_cons_of_ne_nil hwsne'
    rw [hws] at hk1b
    simp only [List.cons_append, List.cons.injEq] at hk1b
    obtain ⟨-, hk2⟩ := hk1b
    -- ws'' ++ tp' ++ tok' ++ rest = name ++ Tr, and ws'' must be empty
    have hws'' : ws'' = [] := by
      cases hws2 : ws'' with
      | nil => rfl
      | cons d ws3 =>
        exfalso
        rw [hws2] at hk2
        obtain ⟨n0, name', hn⟩ := List.exists_cons_of_ne_nil hname.1
        rw [hn] at hk2
        simp only [List.cons_append, List.cons.injEq] at hk2
        have hd : isPySpace d = true := by
          apply hwssp'
          rw [hws, hws2]; simp
        have hn0 : isPySpace n0 = false := hname.2.1 n0 (by rw [hn]; rfl)
        rw [hk2.1, hn0] at hd
        exact Bool.noConfusion hd
    subst hws''
    rw [List.nil_append] at hk2
    -- tp' ++ tok' ++ rest = name ++ Tr
    have htp'len : tp'.length = 18 := length_of_lower_kwOcid hltp'
    by_cases hlen : 18 ≤ name.length
    · -- tp' is an initial segment of name: name contains "compartment"
      obtain ⟨k3, hk3, -⟩ := split_long hk2.symm (by omega)
      apply hname.no_kw (u := "ocid1.".toList)
        (v := '.' :: lowerList k3)
      rw [hk3, lowerList_append, hltp', kwOcid_split]
      simp
    · -- tp' overruns name into Tr: Tr's head would be a token character
      obtain ⟨γ, hγ1, hγ2⟩ := split_long hk2 (by omega)
      have hγne : γ ≠ [] := by
        intro h0
        rw [h0, List.append_nil] at hγ1
        rw [hγ1] at htp'len
        omega
      obtain ⟨g0, γ', hg⟩ := List.exists_cons_of_ne_nil hγne
      have hg0 : isOcidChar g0 = true := by
        apply ocid_of_mem_lower_kwOcid hltp'
        rw [hγ1, hg]; simp
      have : Tr.head? = some g0 := by rw [hγ2, hg]; rfl
      rw [hTrh g0 this] at hg0
      exact Bool.noConfusion hg0

/-- No match can start anywhere inside the replacement text
`compartment <name><translated rest>`. -/
theorem noMatchR (name Tr : Str) (hname : SafeName name)
    (hTr : ∀ p, matchHere (Tr.drop p) = none)
    (hTrh : ∀ c, Tr.head? = some c → isOcidChar c = false) :
    ∀ q, matchHere ((kwCompartment ++ ' ' :: (name ++ Tr)).drop q) = none := by
  intro q
  have hR : kwCompartment ++ ' ' :: (name ++ Tr)
      = (kwCompartment ++ [' ']) ++ (name ++ Tr) := by simp
  have hkwlen : kwCompartment.length = 11 := by decide
  by_cases hq0 : q = 0
  · subst hq0
    simpa using noMatchR_zero name Tr hname hTrh
  by_cases hq1 : q ≤ 11
  · have h1 : (kwCompartment ++ ' ' :: (name ++ Tr)).drop q
        = (kwCompartment.drop q ++ [' ']) ++ (name ++ Tr) := by
      rw [hR, List.drop_append_of_le_length
        (by simp only [List.length_append, hkwlen, List.length_singleton]
            omega),
        List.drop_append_of_le_length (by omega)]
    rw [h1]
    cases hm : matchHere ((kwCompartment.drop q ++ [' ']) ++ (name ++ Tr)) with
    | none => rfl
    | some pr =>
      exfalso
      obtain ⟨w', ws', tp', tok', hX, hlw', -, -, -, -, -, -, -⟩ :=
        (matchHere_some_iff _ pr.1 pr.2).mp (by rw [hm])
      have hX' : (kwCompartment.drop q ++ [' ']) ++ (name ++ Tr)
          = w' ++ (ws' ++ (tp' ++ (tok' ++ pr.2))) := by
        rw [hX]; simp [List.append_assoc]
      have hw'len : w'.length = 11 := length_of_lower_kw hlw'
      obtain ⟨k2, hk2, -⟩ := split_long hX'.symm
        (by simp only [List.length_append, List.length_drop, hkwlen,
          List.length_singleton, hw'len]; omega)
      have hsp : isOcidChar ' ' = true := by
        apply ocid_of_mem_lower_kw hlw'
        rw [hk2]
        simp
      exact absurd hsp (by decide)
  by_cases hq2 : q < 12 + name.length
  · have h1 : (kwCompartment ++ ' ' :: (name ++ Tr)).drop q
        = name.drop (q - 12) ++ Tr := by
      rw [hR]
      have hq : q = (kwCompartment ++ [' ']).length + (q - 12) := by
        simp only [List.length_append, hkwlen, List.length_singleton]
        omega
      conv_lhs => rw [hq, List.drop_append]
      rw [List.drop_append_of_le_length (by omega)]
    rw [h1]
    cases hm : matchHere (name.drop (q - 12) ++ Tr) with
    | none => rfl
    | some pr =>
      exfalso
      obtain ⟨w', ws', tp', tok', hX, hlw', -, -, -, -, -, -, -⟩ :=
        (matchHere_some_iff _ pr.1 pr.2).mp (by rw [hm])
      have hX' : name.drop (q - 12) ++ Tr
          = w' ++ (ws' ++ (tp' ++ (tok' ++ pr.2))) := by
        rw [hX]; simp [List.append_assoc]
      have hw'len : w'.length = 11 := length_of_lower_kw hlw'
      by_cases hlen : 11 ≤ name.length - (q - 12)
      · obtain ⟨k3, hk3, -⟩ := split_long hX'
          (by simp only [List.length_drop, hw'len]; omega)
        apply hname.no_kw (u := lowerList (name.take (q - 12)))
          (v := lowerList k3)
        calc lowerList name
            = lowerList (name.take (q - 12) ++ name.drop (q - 12)) := by
              rw [List.take_append_drop]
          _ = lowerList (name.take (q - 12)) ++
                (lowerList w' ++ lowerList k3) := by
              rw [hk3, lowerList_append, lowerList_append]
          _ = lowerList (name.take (q - 12)) ++
                (kwCompartment ++ lowerList k3) := by rw [hlw']
      · obtain ⟨γ, hγ1, hγ2⟩ := split_long hX'.symm
          (by simp only [List.length_drop, hw'len]; omega)
        have hγne : γ ≠ [] := by
          intro h0
          rw [h0, List.append_nil] at hγ1
          have := congrArg List.length hγ1
          simp only [hw'len, List.length_drop] at this
          omega
        obtain ⟨g0, γ', hg⟩ := List.exists_cons_of_ne_nil hγne
        have hg0 : isOcidChar g0 = true := by
          apply ocid_of_mem_lower_kw hlw'
          rw [hγ1, hg]; simp
        have hTrg : Tr.head? = some g0 := by rw [hγ2, hg]; rfl
        rw [hTrh g0 hTrg] at hg0
        exact Bool.noConfusion hg0
  · have h1 : (kwCompartment ++ ' ' :: (name ++ Tr)).drop q
        = Tr.drop (q - 12 - name.length) := by
      rw [hR]
      have hq : q = (kwCompartment ++ [' ']).length +
          (name.length + (q - 12 - name.length)) := by
        simp only [List.length_append, hkwlen, List.length_singleton]
        omega
      conv_lhs => rw [hq, List.drop_append, List.drop_append]
    rw [h1]
    exact hTr _

theorem kw_border : ∀ j, 1 ≤ j → j ≤ 10 →
    kwCompartment.drop j ≠ kwCompartment.take (11 - j) := by decide

theorem lowerList_kw : lowerList kwCompartment = kwCompartment := by decide

theorem kw_head_cons : kwCompartment = 'c' :: "ompartment".toList := by decide

theorem kwOcid_drop_take : ∀ j, 1 ≤ j → j ≤ 17 →
    (kwOcid.drop j).take 12
      ≠ (kwCompartment ++ [' ']).take (min 12 (18 - j)) := by decide

theorem take_le_twelve (Z : Str) (k : Nat) (hk : k ≤ 12) :
    (kwCompartment ++ ' ' :: Z).take k = (kwCompartment ++ [' ']).take k := by
  have h : kwCompartment ++ ' ' :: Z = (kwCompartment ++ [' ']) ++ Z := by simp
  rw [h, List.take_append_of_le_length
    (by simp only [List.length_append, List.length_singleton]
        have : kwCompartment.length = 11 := by decide
        omega)]

/-- Splitting a lower-cased concatenation: the second part is a
`drop` of the whole. -/
theorem lower_split_drop {x y k : Str}
    (h : lowerList x ++ lowerList y = k) :
    lowerList y = k.drop x.length := by
  have h2 : (lowerList x ++ lowerList y).drop x.length = lowerList y := by
    rw [show x.length = (lowerList x).length from (lowerList_length x).symm]
    exact List.drop_left _ _
  rw [← h2, h]

/-- The suffix of `ocid1.compartment.` starting at `j ∈ [1,17]` is
never a prefix of `compartment <anything>`. -/
theorem kwOcid_suffix_not_prefix {j : Nat} (h1 : 1 ≤ j) (h2 : j ≤ 17)
    (Z : Str) : kwOcid.drop j ≠ (kwCompartment ++ ' ' :: Z).take (18 - j) := by
  intro heq
  have h12 := congrArg (List.take 12) heq
  rw [List.take_take, take_le_twelve Z _ (by omega)] at h12
  exact kwOcid_drop_take j h1 h2 h12

/-- The lower-casing of the replacement text, split at its head
segment. -/
theorem lowerList_repl (name Tr : Str) :
    lowerList (kwCompartment ++ ' ' :: (name ++ Tr))
      = kwCompartment ++ ' ' :: lowerList (name ++ Tr) := by
  rw [show kwCompartment ++ ' ' :: (name ++ Tr)
      = (kwCompartment ++ [' ']) ++ (name ++ Tr) by simp]
  rw [lowerList_append,
    show lowerList (kwCompartment ++ [' ']) = kwCompartment ++ [' ']
      from by decide]
  simp

/-- No match can start strictly before the rewritten region: a match
there in the output would yield a match at the same position in the
original input, contradicting leftmostness of the replaced
occurrence. -/
theorem noMatchA (a w ws tp tok rest name Tr : Str)
    (hlw : lowerList w = kwCompartment)
    (hname : SafeName name)
    (hTrh : ∀ c, Tr.head? = some c → isOcidChar c = false)
    (hleft : ∀ p', p' < a.length →
      matchHere ((a ++ (w ++ ws ++ tp ++ tok ++ rest)).drop p') = none)
    (p : ℕ) (hp : p < a.length) :
    matchHere ((a ++ (kwCompartment ++ ' ' :: (name ++ Tr))).drop p)
      = none := by
  have hdropR : (a ++ (kwCompartment ++ ' ' :: (name ++ Tr))).drop p
      = a.drop p ++ (kwCompartment ++ ' ' :: (name ++ Tr)) :=
    List.drop_append_of_le_length (le_of_lt hp)
  have hdropM : (a ++ (w ++ ws ++ tp ++ tok ++ rest)).drop p
      = a.drop p ++ (w ++ ws ++ tp ++ tok ++ rest) :=
    List.drop_append_of_le_length (le_of_lt hp)
  rw [hdropR]
  have horig : matchHere (a.drop p ++ (w ++ ws ++ tp ++ tok ++ rest))
      = none := by
    rw [← hdropM]
    exact hleft p hp
  have hAlen : 1 ≤ (a.drop p).length := by
    rw [List.length_drop]
    omega
  cases hmm : matchHere (a.drop p ++ (kwCompartment ++ ' ' :: (name ++ Tr)))
      with
  | none => rfl
  | some pr =>
    exfalso
    obtain ⟨w', ws', tp', tok', hX, hlw', hwsne', hwssp', hltp', htokne',
      htokoc', hrest', -⟩ :=
      (matchHere_some_iff _ pr.1 pr.2).mp (by rw [hmm])
    have hw'len : w'.length = 11 := length_of_lower_kw hlw'
    have htp'len : tp'.length = 18 := length_of_lower_kwOcid hltp'
    have hkw11 : kwCompartment.length = 11 := by decide
    have hX' : a.drop p ++ (kwCompartment ++ ' ' :: (name ++ Tr))
        = w' ++ (ws' ++ (tp' ++ (tok' ++ pr.2))) := by
      rw [hX]; simp [List.append_assoc]
    by_cases hn1 : (a.drop p).length < 11
    · -- the candidate word spans the boundary: "compartment" has no
      -- nontrivial border
      obtain ⟨β, hβ1, hβ2⟩ := split_long hX'.symm (by omega)
      have hβlen : β.length = 11 - (a.drop p).length := by
        have := congrArg List.length hβ1
        simp only [List.length_append, hw'len] at this
        omega
      have hβlow : lowerList β = kwCompartment.drop (a.drop p).length := by
        apply lower_split_drop
        rw [← lowerList_append, ← hβ1, hlw']
      obtain ⟨k4, hk4, -⟩ := split_long hβ2 (by omega)
      have hβtake : β = kwCompartment.take β.length := by
        rw [hk4, List.take_left]
      have hmapkw : List.map Char.toLower kwCompartment = kwCompartment :=
        lowerList_kw
      have hβlowself : lowerList β = β := by
        rw [hβtake, lowerList, List.map_take, hmapkw]
      apply kw_border (a.drop p).length hAlen (by omega)
      calc kwCompartment.drop (a.drop p).length
          = lowerList β := hβlow.symm
        _ = β := hβlowself
        _ = kwCompartment.take β.length := hβtake
        _ = kwCompartment.take (11 - (a.drop p).length) := by rw [hβlen]
    · obtain ⟨A1, hA1, hΞ1⟩ := split_long hX' (by omega)
      by_cases hn2 : A1.length < ws'.length
      · -- the candidate whitespace run would contain the boundary 'c'
        obtain ⟨η, hη1, hη2⟩ := split_long hΞ1 (by omega)
        have hηne : η ≠ [] := by
          intro h0
          rw [h0, List.append_nil] at hη1
          rw [hη1] at hn2
          omega
        obtain ⟨c0, η', hc⟩ := List.exists_cons_of_ne_nil hηne
        have hc0 : c0 = 'c' := by
          rw [hc] at hη2
          rw [kw_head_cons] at hη2
          simp only [List.cons_append, List.cons.injEq] at hη2
          exact hη2.1.symm
        have hsp : isPySpace c0 = true := by
          apply hwssp'
          rw [hη1, hc]
          simp
        rw [hc0] at hsp
        exact absurd hsp (by decide)
      · obtain ⟨A2, hA2, hΞ2⟩ := split_long hΞ1.symm (by omega)
        by_cases hn3 : A2.length < 18
        · -- the candidate ocid literal would touch the boundary
          obtain ⟨β, hβ1, hβ2⟩ := split_long hΞ2 (by omega)
          by_cases hA2nil : A2 = []
          · -- it would start exactly at the replacement, whose first
            -- character lowers to 'c', not 'o'
            rw [hA2nil, List.nil_append] at hβ1
            have htpne : tp' ≠ [] := by
              intro h0
              rw [h0] at htp'len
              simp at htp'len
            obtain ⟨t0, tp'', ht⟩ := List.exists_cons_of_ne_nil htpne
            have ht0 : t0 = 'c' := by
              rw [← hβ1, ht] at hβ2
              rw [kw_head_cons] at hβ2
              simp only [List.cons_append, List.cons.injEq] at hβ2
              exact hβ2.1.symm
            have hlow : Char.toLower t0 = 'o' := by
              rw [ht] at hltp'
              simp only [lowerList, List.map_cons] at hltp'
              rw [show kwOcid = 'o' :: "cid1.compartment.".toList
                from by decide] at hltp'
              exact (List.cons.injEq _ _ _ _ ▸ hltp').1
            rw [ht0] at hlow
            exact absurd hlow (by decide)
          · -- it would span strictly: a suffix of "ocid1.compartment."
            -- would be a prefix of "compartment <name>…"
            have hA2pos : 1 ≤ A2.length :=
              List.length_pos.mpr hA2nil
            have hβlen : β.length = 18 - A2.length := by
              have := congrArg List.length hβ1
              simp only [List.length_append, htp'len] at this
              omega
            have hβlow : lowerList β = kwOcid.drop A2.length := by
              apply lower_split_drop
              rw [← lowerList_append, ← hβ1, hltp']
            have hβtake : β = (kwCompartment ++ ' ' :: (name ++ Tr)).take
                β.length := by
              rw [hβ2, List.take_left]
            apply kwOcid_suffix_not_prefix (j := A2.length) hA2pos (by omega)
              (lowerList (name ++ Tr))
            calc kwOcid.drop A2.length
                = lowerList β := hβlow.symm
              _ = lowerList ((kwCompartment ++ ' ' :: (name ++ Tr)).take
                    (18 - A2.length)) := by rw [← hβlen, ← hβtake]
              _ = (lowerList (kwCompartment ++ ' ' :: (name ++ Tr))).take
                    (18 - A2.length) := by
                  rw [lowerList, lowerList, List.map_take]
              _ = (kwCompartment ++ ' ' :: lowerList (name ++ Tr)).take
                    (18 - A2.length) := by rw [lowerList_repl]
        · -- word, whitespace and ocid literal all lie before the
          -- boundary: the original has a match at this position too
          obtain ⟨δ, hδ1, hδ2⟩ := split_long hΞ2.symm (by omega)
          have hwne : w ≠ [] := by
            intro h0
            rw [h0] at hlw
            have := congrArg List.length hlw
            simp [lowerList, kwCompartment] at this
          obtain ⟨w0, wtail, hw0⟩ := List.exists_cons_of_ne_nil hwne
          have hhead : ∃ c0 l0,
              δ ++ (w ++ ws ++ tp ++ tok ++ rest) = c0 :: l0 ∧
              isOcidChar c0 = true := by
            cases hδc : δ with
            | nil =>
              refine ⟨w0, wtail ++ ws ++ tp ++ tok ++ rest, ?_, ?_⟩
              · rw [List.nil_append, hw0]
                simp [List.append_assoc]
              · exact ocid_of_mem_lower_kw hlw w0 (by rw [hw0]; simp)
            | cons d δ' =>
              obtain ⟨t0, tok'', htk⟩ := List.exists_cons_of_ne_nil htokne'
              have hdt : d = t0 := by
                rw [hδc, htk] at hδ2
                simp only [List.cons_append, List.cons.injEq] at hδ2
                exact hδ2.1.symm
              refine ⟨d, δ' ++ (w ++ ws ++ tp ++ tok ++ rest), by simp, ?_⟩
              rw [hdt]
              exact htokoc' t0 (by rw [htk]; simp)
          obtain ⟨c0, l0, hc0eq, hc0ocid⟩ := hhead
          have htw : (δ ++ (w ++ ws ++ tp ++ tok ++ rest)).takeWhile
              isOcidChar ≠ [] := by
            rw [hc0eq, List.takeWhile_cons, if_pos hc0ocid]
            simp
          have hAdec : a.drop p = w' ++ ws' ++ tp' ++ δ := by
            rw [hA1, hA2, hδ1]
            simp [List.append_assoc]
          have hnew : matchHere (a.drop p ++ (w ++ ws ++ tp ++ tok ++ rest))
              = some (tp' ++ (δ ++ (w ++ ws ++ tp ++ tok ++ rest)).takeWhile
                  isOcidChar,
                (δ ++ (w ++ ws ++ tp ++ tok ++ rest)).dropWhile isOcidChar) := by
            apply (matchHere_some_iff _ _ _).mpr
            refine ⟨w', ws', tp',
              (δ ++ (w ++ ws ++ tp ++ tok ++ rest)).takeWhile isOcidChar,
              ?_, hlw', hwsne', hwssp', hltp', htw,
              (fun c hc => mem_takeWhile_true _ c hc),
              (fun c hc => dropWhile_head_false _ _ c hc), rfl⟩
            calc a.drop p ++ (w ++ ws ++ tp ++ tok ++ rest)
                = w' ++ ws' ++ tp' ++ (δ ++ (w ++ ws ++ tp ++ tok ++ rest)) := by
                  rw [hAdec]; simp [List.append_assoc]
              _ = w' ++ ws' ++ tp' ++
                    ((δ ++ (w ++ ws ++ tp ++ tok ++ rest)).takeWhile isOcidChar
                      ++ (δ ++ (w ++ ws ++ tp ++ tok ++ rest)).dropWhile
                        isOcidChar) := by
                  rw [List.takeWhile_append_dropWhile]
              _ = w' ++ ws' ++ tp' ++
                    (δ ++ (w ++ ws ++ tp ++ tok ++ rest)).takeWhile isOcidChar
                    ++ (δ ++ (w ++ ws ++ tp ++ tok ++ rest)).dropWhile
                      isOcidChar := by
                  simp [List.append_assoc]
          rw [horig] at hnew
          exact Option.noConfusion hnew

/-- With safe resolved names, one `re.sub` pass leaves no further
occurrence of the pattern anywhere in its output. -/
theorem noMatch_translateWith (f : Str → Str) (hf : ∀ id, SafeName (f id)) :
    ∀ (n : Nat) (s : Str), s.length ≤ n →
      ∀ p, matchHere ((translateWith f s).drop p) = none := by
  intro n
  induction n with
  | zero =>
    intro s hs p
    have h0 : s = [] := List.length_eq_zero.mp (Nat.le_zero.mp hs)
    subst h0
    cases p <;> exact matchHere_nil
  | succ n ih =>
    intro s hs p
    by_cases hnm : ∀ q, matchHere (s.drop q) = none
    · rw [translateWith_of_noMatch f s hnm]
      exact hnm p
    · push_neg at hnm
      have hex : ∃ q, (matchHere (s.drop q)).isSome = true := by
        obtain ⟨q, hq⟩ := hnm
        exact ⟨q, Option.isSome_iff_ne_none.mpr hq⟩
      have hq := Nat.find_spec hex
      obtain ⟨pr, hpr⟩ := Option.isSome_iff_exists.mp hq
      obtain ⟨id, rest⟩ := pr
      have hqlt : Nat.find hex < s.length := by
        by_contra hge
        rw [List.drop_eq_nil_of_le (by omega), matchHere_nil] at hpr
        exact Option.noConfusion hpr
      have hlen_take : (s.take (Nat.find hex)).length = Nat.find hex := by
        rw [List.length_take]
        omega
      have hleft : ∀ r, r < (s.take (Nat.find hex)).length →
          matchHere ((s.take (Nat.find hex) ++ s.drop (Nat.find hex)).drop r)
            = none := by
        intro r hr
        rw [List.take_append_drop]
        have hm := Nat.find_min hex (m := r) (by omega)
        cases hmr : matchHere (s.drop r) with
        | none => rfl
        | some v => exact absurd (by rw [hmr]; rfl) hm
      have hout : translateWith f s
          = s.take (Nat.find hex) ++
              (kwCompartment ++ ' ' :: (f id ++ translateWith f rest)) := by
        conv_lhs => rw [← List.take_append_drop (Nat.find hex) s]
        exact translateWith_leftmost f _ _ hleft hpr
      obtain ⟨w, ws, tp, tok, hdec, hlw, -, -, -, -, -, hrh, -⟩ :=
        (matchHere_some_iff _ id rest).mp hpr
      have hrest_len : rest.length ≤ n := by
        have h1 := matchHere_rest_length hpr
        have h2 : (s.drop (Nat.find hex)).length ≤ s.length := by
          rw [List.length_drop]; omega
        omega
      have hTr := ih rest hrest_len
      have hTrh : ∀ c, (translateWith f rest).head? = some c →
          isOcidChar c = false := by
        intro c hc
        rw [translateWith_head_eq f hrh] at hc
        exact hrh c hc
      rw [hout]
      by_cases hpa : p < (s.take (Nat.find hex)).length
      · apply noMatchA _ w ws tp tok rest _ _ hlw (hf id) hTrh ?_ p hpa
        intro p' hp'
        rw [← hdec]
        exact hleft p' hp'
      · have hdrop : (s.take (Nat.find hex) ++
            (kwCompartment ++ ' ' :: (f id ++ translateWith f rest))).drop p
              = (kwCompartment ++ ' ' ::
                  (f id ++ translateWith f rest)).drop
                    (p - (s.take (Nat.find hex)).length) := by
          have hp2 : p = (s.take (Nat.find hex)).length +
              (p - (s.take (Nat.find hex)).length) := by omega
          conv_lhs => rw [hp2, List.drop_append]
        rw [hdrop]
        exact noMatchR (f id) (translateWith f rest) (hf id) hTr hTrh _

/-- C7 amended: the translator is idempotent whenever every resolved
name is nonempty, does not begin with whitespace, and contains no
case-insensitive occurrence of `compartment` — both for the pure
translator and for the stateful `translate_compartment_ids_in_statement`
run on a consistent cache. -/
theorem c7_translate_idempotent (f : Str → Str)
    (hf : ∀ id, SafeName (f id)) (s : Str) (oracle : Oracle)
    (st : AnalyzerState)
    (hg : goodCache oracle st.tenancy_id st.compartment_cache)
    (hres : ∀ id, SafeName (pureResolve oracle st.tenancy_id id)) :
    translateWith f (translateWith f s) = translateWith f s ∧
    (translate_compartment_ids_in_statement oracle
        (translate_compartment_ids_in_statement oracle st s).2
        (translate_compartment_ids_in_statement oracle st s).1).1
      = (translate_compartment_ids_in_statement oracle st s).1 := by
  constructor
  · exact translateWith_of_noMatch f (translateWith f s)
      (noMatch_translateWith f hf s.length s (Nat.le_refl _))
  · obtain ⟨h1, h2, h3⟩ := translateSt_pure s hg
    have hg2 : goodCache oracle
        (translate_compartment_ids_in_statement oracle st s).2.tenancy_id
        (translate_compartment_ids_in_statement
          oracle st s).2.compartment_cache := by
      rw [h2]; exact h3
    obtain ⟨h4, -, -⟩ := translateSt_pure
      (translate_compartment_ids_in_statement oracle st s).1 hg2
    rw [h4, h2, h1]
    exact translateWith_of_noMatch _
      (translateWith (pureResolve oracle st.tenancy_id) s)
      (noMatch_translateWith _ hres s.length s (Nat.le_refl _))

/-- Checking `SafeName` through decidable projections. -/
theorem safeName_of_checks {n : Str} (h1 : n ≠ [])
    (h2 : isPySpace (n.headD 'x') = false)
    (h3 : pyContains kwCompartment (lowerList n) = false) : SafeName n := by
  refine ⟨h1, ?_, h3⟩
  intro c hc
  cases n with
  | nil => simp at hc
  | cons d l =>
    simp only [List.head?_cons, Option.some.injEq] at hc
    rw [← hc]
    simpa [List.headD] using h2

/-- Witness for the amended C7 at a concrete resolver. -/
theorem c7_translate_idempotent_witness :
    (∀ id : Str, SafeName ((fun _ => "Finance".toList : Str → Str) id)) ∧
    (∀ id : Str, SafeName
      (pureResolve (fun _ => some "Finance".toList)
        (AnalyzerState.mk "t".toList []).tenancy_id id)) ∧
    (translateWith (fun _ => "Finance".toList)
        (translateWith (fun _ => "Finance".toList)
          "allow x in compartment ocid1.compartment.a".toList)
      = translateWith (fun _ => "Finance".toList)
          "allow x in compartment ocid1.compartment.a".toList ∧
    (translate_compartment_ids_in_statement (fun _ => some "Finance".toList)
        (translate_compartment_ids_in_statement (fun _ => some "Finance".toList)
          (AnalyzerState.mk "t".toList [])
          "allow x in compartment ocid1.compartment.a".toList).2
        (translate_compartment_ids_in_statement (fun _ => some "Finance".toList)
          (AnalyzerState.mk "t".toList [])
          "allow x in compartment ocid1.compartment.a".toList).1).1
      = (translate_compartment_ids_in_statement (fun _ => some "Finance".toList)
          (AnalyzerState.mk "t".toList [])
          "allow x in compartment ocid1.compartment.a".toList).1) := by
  have hsafe : SafeName ("Finance".toList) :=
    safeName_of_checks (by decide) (by decide) (by decide)
  have hroot : SafeName rootName :=
    safeName_of_checks (by decide) (by decide) (by decide)
  have hres : ∀ id : Str, SafeName
      (pureResolve (fun _ => some "Finance".toList)
        (AnalyzerState.mk "t".toList []).tenancy_id id) := by
    intro id
    have halt : pureResolve (fun _ => some "Finance".toList)
        (AnalyzerState.mk "t".toList []).tenancy_id id = rootName ∨
        pureResolve (fun _ => some "Finance".toList)
          (AnalyzerState.mk "t".toList []).tenancy_id id
          = "Finance".toList := by
      unfold pureResolve
      by_cases h : id = (AnalyzerState.mk "t".toList []).tenancy_id
      · rw [if_pos h]; exact Or.inl rfl
      · rw [if_neg h]; exact Or.inr rfl
    rcases halt with h | h <;> rw [h]
    · exact hroot
    · exact hsafe
  exact ⟨fun _ => hsafe, hres,
    c7_translate_idempotent (fun _ => "Finance".toList) (fun _ => hsafe)
      "allow x in compartment ocid1.compartment.a".toList
      (fun _ => some "Finance".toList) (AnalyzerState.mk "t".toList [])
      (fun _ _ h => by simp [lookupCache] at h) hres⟩

/-- C7 counterexample: the claim's own hypothesis — resolved names
never themselves match the pattern — does not give idempotence.  The
resolver always answering `xcompartment` (which nowhere matches the
pattern) makes a second pass rewrite text the first pass left
alone. -/
theorem c7_counterexample :
    (∀ id : Str,
      hasMatch ((fun _ => "xcompartment".toList : Str → Str) id) = false) ∧
    translateWith (fun _ => "xcompartment".toList)
        (translateWith (fun _ => "xcompartment".toList)
          "compartment ocid1.compartment.a ocid1.compartment.b".toList)
      ≠ translateWith (fun _ => "xcompartment".toList)
          "compartment ocid1.compartment.a ocid1.compartment.b".toList :=
  ⟨fun _ => (by decide : hasMatch ("xcompartment".toList) = false),
   by decide⟩

end OCIPolicy
